import Mathlib

/-!
# Verification of the racing_sembas exploration engine

Shallow embedding, over exact real arithmetic, of the components of the
`racing_sembas` repository that the specification's claims are about:

* the nalgebra-style vector/matrix primitives (`src/structs/mod.rs` uses
  `SVector<f64, N>`; we model `f64` by `ℝ` and an `SVector` by `Fin N → ℝ`),
* `Span` with Gram-Schmidt orthonormalization and its rotater
  (`src/structs/mod.rs`),
* the sample / halfspace data model (`src/structs/sampling.rs`,
  `src/structs/boundary.rs`),
* `binary_surface_search` (`src/search/surfacing.rs`),
* `ConstantAdherer` (`src/adherers/const_adherer.rs`) and
  `BinarySearchAdherer` (`src/adherers/bs_adherer.rs`),
* `approx_surface` (`src/boundary_tools/estimation.rs`),
* `MeshExplorer` (`src/explorers/mesh_explorer.rs`),
* the `RemoteClassifier` classify exchange (`src/api.rs`).

Modelling conventions:

* Rust panics (index out of bounds, `u32` underflow, failed asserts) are
  modelled by `Option`, with `none` denoting a panic.
* A `Classifier` is modelled by a state-passing function
  `σ → Vec N → Except SamplingError Bool × σ`; every classifier
  implementation in the repository (`FunctionClassifier`, `RemoteClassifier`,
  the `sps` shapes) builds its returned sample as `Sample::from_class(p, cls)`
  from the queried point `p`, which the call sites here reproduce.
  A mutable (`FnMut`) classifier corresponds to a genuinely stateful `σ`.
* The `WithinMode`/`OutOfMode` newtype wrappers around points are erased:
  `Halfspace.b` and `BoundaryPair.t`/`BoundaryPair.x` are stored as raw
  vectors, with their mode tracked by the surrounding claims.
-/

set_option autoImplicit false
set_option maxHeartbeats 1000000

namespace RacingSembas

noncomputable section

/-! ## Vectors and matrices (nalgebra `SVector` / `OMatrix` over `f64`) -/

/-- An N-dimensional vector, modelling `SVector<f64, N>`. -/
abbrev Vec (N : ℕ) := Fin N → ℝ

/-- nalgebra `u.dot(&v)`. -/
def dotV {N : ℕ} (u v : Vec N) : ℝ := ∑ i, u i * v i

/-- nalgebra `v.norm()`. -/
noncomputable def normV {N : ℕ} (v : Vec N) : ℝ := Real.sqrt (dotV v v)

/-- nalgebra `v.normalize()`: componentwise division by the norm. -/
noncomputable def normalizeV {N : ℕ} (v : Vec N) : Vec N := fun i => v i / normV v

/-- nalgebra `v / c` (componentwise division of a vector by a scalar). -/
def sdiv {N : ℕ} (v : Vec N) (c : ℝ) : Vec N := fun i => v i / c

/-- An N×N matrix, modelling `OMatrix<f64, Const<N>, Const<N>>`. -/
abbrev Mat (N : ℕ) := Fin N → Fin N → ℝ

/-- Matrix-vector product `M * v`. -/
def mulVecM {N : ℕ} (M : Mat N) (v : Vec N) : Vec N := fun i => ∑ j, M i j * v j

/-- Outer product `u * vᵀ`. -/
def outerV {N : ℕ} (u v : Vec N) : Mat N := fun i j => u i * v j

/-- The identity matrix. -/
def idM (N : ℕ) : Mat N := fun i j => if i = j then 1 else 0

/-- Matrix product `M * P` (used by `create_cardinals` for `rot * basis`). -/
def matMulM {N : ℕ} (M P : Mat N) : Mat N := fun i j => ∑ k, M i k * P k j

/-- Column `j` of a matrix, as a vector (nalgebra `m.column(j)`). -/
def colM {N : ℕ} (M : Mat N) (j : Fin N) : Vec N := fun i => M i j

/-- nalgebra `u.angle(&v)`: arc-cosine of the normalized dot product
(Mathlib's `Real.arccos` clamps its argument to `[-1, 1]`, as nalgebra does). -/
noncomputable def vangle {N : ℕ} (u v : Vec N) : ℝ :=
  Real.arccos (dotV u v / (normV u * normV v))

/-! ## Sample / halfspace data model (`src/structs/sampling.rs`, `boundary.rs`) -/

/-- `Sample<N>`: a classified point. -/
inductive Sample (N : ℕ) where
  | withinMode (p : Vec N)
  | outOfMode (p : Vec N)

/-- The raw point of a sample (`Deref` / `into_inner` in the source). -/
def Sample.point {N : ℕ} : Sample N → Vec N
  | withinMode p => p
  | outOfMode p => p

/-- `Sample::class()`. -/
def Sample.cls {N : ℕ} : Sample N → Bool
  | withinMode _ => true
  | outOfMode _ => false

/-- `Sample::from_class(p, cls)`. -/
def Sample.fromClass {N : ℕ} (p : Vec N) (c : Bool) : Sample N :=
  if c then .withinMode p else .outOfMode p

/-- `SamplingError` (`src/structs/error.rs`). -/
inductive SamplingError where
  | outOfBounds
  | boundaryLost
  | maxSamplesExceeded
  | invalidClassifierResponse (msg : String)
deriving DecidableEq

/-- `Halfspace<N>`: boundary point `b` (a `WithinMode` point in the source)
and surface direction `n`. -/
structure Halfspace (N : ℕ) where
  b : Vec N
  n : Vec N

/-- `BoundaryPair<N>`: `t` is the `WithinMode` point, `x` the `OutOfMode` one. -/
structure BoundaryPair (N : ℕ) where
  t : Vec N
  x : Vec N

/-- The classifier interface `Classifier<N>`, state-passing form: the state `σ`
models the `&mut self` of the Rust trait. The `Bool` is the sample's class; all
classifier implementations in the repository return `Sample::from_class(p, cls)`
for the queried point `p`, which call sites reproduce. -/
def ClassifierF (N : ℕ) (σ : Type) := σ → Vec N → Except SamplingError Bool × σ

/-- A classifier that never errors (the hypothesis "answers all queries
without error" of the claims): built from a total state-passing function. -/
def totalCls {N : ℕ} {σ : Type} (g : σ → Vec N → Bool × σ) : ClassifierF N σ :=
  fun st p => (Except.ok (g st p).1, (g st p).2)

/-- A pure (stateless, deterministic) classifier. -/
def pureCls {N : ℕ} (g : Vec N → Bool) : ClassifierF N Unit :=
  fun st p => (Except.ok (g p), st)

/-! ## `binary_surface_search` (`src/search/surfacing.rs`) -/

/-- The full final state of the `binary_surface_search` loop: the returned
value together with the final values of the local variables `p_t`, `p_x`,
`s`, `i` and the classifier state. -/
structure BssResult (N : ℕ) (σ : Type) where
  res : Except SamplingError (Halfspace N)
  pt : Vec N
  px : Vec N
  s : Vec N
  i : ℕ
  st : σ

/-- The `while` loop of `binary_surface_search`, carrying the local mutable
variables `p_t`, `p_x`, `s`, `i` of the source. One loop iteration computes
`s = (p_x - p_t) / 2`, increments `i`, classifies `p_t + s`, and moves `p_t`
forward (WithinMode) or `p_x` backward (OutOfMode); a classifier error is
propagated immediately (the `?` in the source). After the loop the source
returns `MaxSamplesExceeded` when `i >= max_samples && s.norm() > max_err`,
and otherwise `Ok(Halfspace { b: WithinMode(p_t), n: s.normalize() })`. -/
noncomputable def bssLoop {N : ℕ} {σ : Type} (maxErr : ℝ) (classifier : ClassifierF N σ)
    (maxSamples : ℕ) (pt px sv : Vec N) (i : ℕ) (st : σ) : BssResult N σ :=
  if h : normV sv > maxErr ∧ i < maxSamples then
    let s2 := sdiv (px - pt) 2
    match classifier st (pt + s2) with
    | (.error e, st2) => ⟨.error e, pt, px, s2, i + 1, st2⟩
    | (.ok true, st2) => bssLoop maxErr classifier maxSamples (pt + s2) px s2 (i + 1) st2
    | (.ok false, st2) => bssLoop maxErr classifier maxSamples pt (px - s2) s2 (i + 1) st2
  else if i ≥ maxSamples ∧ normV sv > maxErr then
    ⟨.error .maxSamplesExceeded, pt, px, sv, i, st⟩
  else
    ⟨.ok ⟨pt, normalizeV sv⟩, pt, px, sv, i, st⟩
termination_by maxSamples - i
decreasing_by
  all_goals omega

/-- `binary_surface_search(max_err, b_pair, max_samples, classifier)`:
runs the loop from `p_t = t`, `p_x = x`, `s = p_x - p_t`, `i = 0` and returns
its result. -/
noncomputable def binary_surface_search {N : ℕ} {σ : Type} (maxErr : ℝ)
    (bPair : BoundaryPair N) (maxSamples : ℕ) (classifier : ClassifierF N σ)
    (st : σ) : Except SamplingError (Halfspace N) :=
  (bssLoop maxErr classifier maxSamples bPair.t bPair.x (bPair.x - bPair.t) 0 st).res


/-! ## `Span` (`src/structs/mod.rs`) -/

/-- `Span<N>`: a 2-dimensional subspace described by two (orthonormalized)
vectors `u` and `v`. -/
structure SpanT (N : ℕ) where
  u : Vec N
  v : Vec N

/-- `Span::new(u, v)`: Gram-Schmidt — `u` is normalized and kept, `v` is
normalized, re-orthogonalized against `u` (`v - u * u.dot(&v)`), and
normalized again. -/
noncomputable def SpanT.new {N : ℕ} (u v : Vec N) : SpanT N :=
  let u2 := normalizeV u
  let v2 := normalizeV v
  let v3 := normalizeV (v2 - dotV u2 v2 • u2)
  ⟨u2, v3⟩

/-- The Gram-Schmidt residual inside `Span::new` before its final
normalization; `Span::new` is degenerate exactly when this is zero. -/
noncomputable def gsResidual {N : ℕ} (u v : Vec N) : Vec N :=
  normalizeV v - dotV (normalizeV u) (normalizeV v) • normalizeV u

/-- `Span::get_rotater()`: the closure `|θ| I + A sinθ + B (cosθ - 1)` with
`A = u vᵀ - v uᵀ` and `B = v vᵀ + u uᵀ`. -/
noncomputable def SpanT.getRotater {N : ℕ} (sp : SpanT N) (θ : ℝ) : Mat N :=
  idM N + Real.sin θ • (outerV sp.u sp.v - outerV sp.v sp.u)
    + (Real.cos θ - 1) • (outerV sp.v sp.v + outerV sp.u sp.u)

/-- The property that `(u, v)` is an orthonormal pair. -/
def IsOrthonormalPair {N : ℕ} (u v : Vec N) : Prop :=
  dotV u u = 1 ∧ dotV v v = 1 ∧ dotV u v = 0

/-- Standard basis vector `j` (used by the concrete test instances). -/
def stdBasis (N : ℕ) (j : Fin N) : Vec N := fun i => if i = j then 1 else 0

/-! ## Adherer state (`src/adherer_core.rs`) -/

/-- `AdhererState<N>`. -/
inductive AdhererState (N : ℕ) where
  | searching
  | foundBoundary (hs : Halfspace N)

/-- The `matches!(state, AdhererState::Searching)` test of the source. -/
def AdhererState.isSearching {N : ℕ} : AdhererState N → Bool
  | searching => true
  | foundBoundary _ => false

/-! ## `ConstantAdherer` (`src/adherers/const_adherer.rs`) -/

/-- The `ConstantAdherer<N>` struct. -/
structure ConstAdh (N : ℕ) where
  span : SpanT N
  pivot : Halfspace N
  v : Vec N
  samples : List (Sample N)
  rot : Option (Mat N)
  angle : ℝ
  deltaAngle : ℝ
  maxRotation : ℝ
  state : AdhererState N

/-- `ConstantAdherer::new(pivot, v, delta_angle, max_rotation)`:
`max_rotation` defaults to `π`. -/
noncomputable def ConstAdh.new {N : ℕ} (pivot : Halfspace N) (v : Vec N)
    (deltaAngle : ℝ) (maxRotation : Option ℝ) : ConstAdh N :=
  { span := SpanT.new pivot.n v
    pivot := pivot
    v := v
    samples := []
    rot := none
    angle := 0
    deltaAngle := deltaAngle
    maxRotation := maxRotation.getD Real.pi
    state := .searching }

/-- `ConstantAdherer::take_initial_sample`: classify `pivot.b + v`, then set
the rotation matrix with the sign chosen from the observed class. A
classifier error propagates (the `?`), leaving `rot` unset. Returns the
mutated adherer, the classifier state, and the `Result`. -/
noncomputable def ConstAdh.takeInitialSample {N : ℕ} {σ : Type} (a : ConstAdh N)
    (classifier : ClassifierF N σ) (st : σ) :
    ConstAdh N × σ × Except SamplingError (Sample N) :=
  match classifier st (a.pivot.b + a.v) with
  | (.error e, st2) => (a, st2, .error e)
  | (.ok c, st2) =>
      let da := if c then a.deltaAngle else -a.deltaAngle
      ({ a with rot := some (a.span.getRotater da) }, st2,
        .ok (Sample.fromClass (a.pivot.b + a.v) c))

/-- `ConstantAdherer::take_sample`: rotate `v`, accumulate the angle, then
classify `pivot.b + v`; the mutations to `v` and `angle` persist even when
the classifier errors. -/
noncomputable def ConstAdh.takeSample {N : ℕ} {σ : Type} (a : ConstAdh N)
    (rot : Mat N) (classifier : ClassifierF N σ) (st : σ) :
    ConstAdh N × σ × Except SamplingError (Sample N) :=
  let v2 := mulVecM rot a.v
  let a2 := { a with v := v2, angle := a.angle + a.deltaAngle }
  match classifier st (a.pivot.b + v2) with
  | (.error e, st2) => (a2, st2, .error e)
  | (.ok c, st2) => (a2, st2, .ok (Sample.fromClass (a.pivot.b + v2) c))

/-- The boundary-crossing detection of `sample_next`: when the new sample
`cur` and the previous sample (`samples.last()`) disagree in class, the state
becomes `FoundBoundary` at the `WithinMode` point `t` of the pair, with
`n = normalize(rot(π/2) * (t - pivot.b))`. -/
noncomputable def ConstAdh.detectCrossing {N : ℕ} (a1 : ConstAdh N)
    (cur : Sample N) : ConstAdh N :=
  match a1.samples.getLast?, cur with
  | some (Sample.outOfMode _), Sample.withinMode t =>
      { a1 with state := AdhererState.foundBoundary (Halfspace.mk t
          (normalizeV (mulVecM (a1.span.getRotater (Real.pi / 2))
            (t - a1.pivot.b)))) }
  | some (Sample.withinMode t), Sample.outOfMode _ =>
      { a1 with state := AdhererState.foundBoundary (Halfspace.mk t
          (normalizeV (mulVecM (a1.span.getRotater (Real.pi / 2))
            (t - a1.pivot.b)))) }
  | _, _ => a1

/-- The tail of `sample_next` after a successful classification: crossing
detection, then the rotation-budget check (`Err(BoundaryLost)` when still
`Searching` with `angle > max_rotation`), then the push of the new sample. -/
noncomputable def ConstAdh.afterSample {N : ℕ} {σ : Type} (a1 : ConstAdh N)
    (cur : Sample N) (st1 : σ) :
    ConstAdh N × σ × Except SamplingError (Sample N) :=
  let a2 := a1.detectCrossing cur
  if a2.state.isSearching = true ∧ a2.angle > a2.maxRotation then
    (a2, st1, .error .boundaryLost)
  else
    ({ a2 with samples := a2.samples ++ [cur] }, st1, .ok cur)

/-- `ConstantAdherer::sample_next`: one classifier query (initial or rotated,
by whether `rot` is set), then `afterSample`; a classifier error propagates
with the mutations made so far. -/
noncomputable def ConstAdh.sampleNext {N : ℕ} {σ : Type} (a : ConstAdh N)
    (classifier : ClassifierF N σ) (st : σ) :
    ConstAdh N × σ × Except SamplingError (Sample N) :=
  match (match a.rot with
         | some rot => a.takeSample rot classifier st
         | none => a.takeInitialSample classifier st) with
  | (a1, st1, .error e) => (a1, st1, .error e)
  | (a1, st1, .ok cur) => a1.afterSample cur st1

/-! ## `BinarySearchAdherer` (`src/adherers/bs_adherer.rs`) -/

/-- The `BinarySearchAdherer<N>` struct. `nIter` models the `u32` field
`n_iter` (whose decrement below zero is a Rust panic under checked
arithmetic); the `rot_factory` closure `Span::new(pivot.n, v).get_rotater()`
is represented by storing the captured span. -/
structure BsAdh (N : ℕ) where
  pivot : Halfspace N
  v : Vec N
  samples : List (Sample N)
  nIter : ℕ
  angle : ℝ
  prevCls : Option Bool
  t : Option (Vec N)
  x : Option (Vec N)
  rotSpan : SpanT N
  state : AdhererState N

/-- `BinarySearchAdherer::new(pivot, v, init_angle, n_iter)`. -/
noncomputable def BsAdh.new {N : ℕ} (pivot : Halfspace N) (v : Vec N)
    (initAngle : ℝ) (nIter : ℕ) : BsAdh N :=
  { pivot := pivot, v := v, samples := [], nIter := nIter, angle := initAngle,
    prevCls := none, t := none, x := none, rotSpan := SpanT.new pivot.n v,
    state := .searching }

/-- `BinarySearchAdherer::take_initial_sample`: classify `pivot.b + v`,
record the class and the seen `WithinMode`/`OutOfMode` point, then
`self.n_iter -= 1` — a panic (`none`) when `n_iter` is already `0`. -/
noncomputable def BsAdh.takeInitialSample {N : ℕ} {σ : Type} (a : BsAdh N)
    (classifier : ClassifierF N σ) (st : σ) :
    Option (BsAdh N × σ × Except SamplingError (Sample N)) :=
  match classifier st (a.pivot.b + a.v) with
  | (.error e, st2) => some (a, st2, .error e)
  | (.ok c, st2) =>
      let a1 := { a with
        prevCls := some c
        t := if c then some (a.pivot.b + a.v) else a.t
        x := if c then a.x else some (a.pivot.b + a.v) }
      if a1.nIter = 0 then none
      else some ({ a1 with nIter := a1.nIter - 1 }, st2,
        .ok (Sample.fromClass (a.pivot.b + a.v) c))

/-- `BinarySearchAdherer::take_sample`: rotate `v` by `±angle` (the sign from
the previous class), classify, record, halve the angle, then
`self.n_iter -= 1` — a panic (`none`) when `n_iter` is already `0`. The
update of `v` persists even when the classifier errors. -/
noncomputable def BsAdh.takeSample {N : ℕ} {σ : Type} (a : BsAdh N)
    (prevCls : Bool) (classifier : ClassifierF N σ) (st : σ) :
    Option (BsAdh N × σ × Except SamplingError (Sample N)) :=
  let ccw : ℝ := if prevCls then 1 else -1
  let v2 := mulVecM (a.rotSpan.getRotater (ccw * a.angle)) a.v
  match classifier st (a.pivot.b + v2) with
  | (.error e, st2) => some ({ a with v := v2 }, st2, .error e)
  | (.ok c, st2) =>
      let a1 := { a with
        v := v2
        prevCls := some c
        t := if c then some (a.pivot.b + v2) else a.t
        x := if c then a.x else some (a.pivot.b + v2)
        angle := a.angle / 2 }
      if a1.nIter = 0 then none
      else some ({ a1 with nIter := a1.nIter - 1 }, st2,
        .ok (Sample.fromClass (a.pivot.b + v2) c))

/-- `BinarySearchAdherer::sample_next`: initial or rotated sample by whether
`prev_cls` is set; on the step that reaches `n_iter = 0`, both a `WithinMode`
and an `OutOfMode` point must have been seen — then the state becomes
`FoundBoundary` at `b = t`, `n = normalize(rot(π/2) * (b - pivot.b))` — and
otherwise the call fails with `BoundaryLost`; finally the sample is pushed. -/
noncomputable def BsAdh.sampleNext {N : ℕ} {σ : Type} (a : BsAdh N)
    (classifier : ClassifierF N σ) (st : σ) :
    Option (BsAdh N × σ × Except SamplingError (Sample N)) :=
  match (match a.prevCls with
         | some prevCls => a.takeSample prevCls classifier st
         | none => a.takeInitialSample classifier st) with
  | none => none
  | some (a1, st1, .error e) => some (a1, st1, .error e)
  | some (a1, st1, .ok cur) =>
    if a1.nIter = 0 then
      match a1.t, a1.x with
      | some t, some _ =>
          let a2 := { a1 with state := AdhererState.foundBoundary (Halfspace.mk t
              (normalizeV (mulVecM (a1.rotSpan.getRotater (Real.pi / 2))
                (t - a1.pivot.b)))) }
          some ({ a2 with samples := a2.samples ++ [cur] }, st1, .ok cur)
      | _, _ => some (a1, st1, .error .boundaryLost)
    else
      some ({ a1 with samples := a1.samples ++ [cur] }, st1, .ok cur)

/-! ## Generic adherer interface and driver loop -/

/-- The `Adherer` trait interface, packaged for the generic consumers
(`approx_surface`, `MeshExplorer`): `sampleNext` returns `none` on a Rust
panic, and `getState` reads the adherer state. The classifier is threaded
through `sampleNext` as in the source trait. -/
structure AdhOps (N : ℕ) (A : Type) (σ : Type) where
  sampleNext : A → σ → Option (A × σ × Except SamplingError (Sample N))
  getState : A → AdhererState N

/-- The `AdhOps` instance for `ConstantAdherer`; its `sample_next` cannot
panic. -/
noncomputable def constOps {N : ℕ} {σ : Type} (classifier : ClassifierF N σ) :
    AdhOps N (ConstAdh N) σ :=
  { sampleNext := fun a st => some (a.sampleNext classifier st)
    getState := fun a => a.state }

/-- The `AdhOps` instance for `BinarySearchAdherer`. -/
noncomputable def bsOps {N : ℕ} {σ : Type} (classifier : ClassifierF N σ) :
    AdhOps N (BsAdh N) σ :=
  { sampleNext := fun a st => a.sampleNext classifier st
    getState := fun a => a.state }

/-- Outcome of driving an adherer to a terminal state: `found`/`failed`
record the number of `sample_next` calls, the final adherer and classifier
states and the collected samples; `panicked` records a Rust panic inside
`sample_next`; `fuelOut` means the embedding's fuel was exhausted first. -/
inductive RunOutcome (N : ℕ) (A : Type) (σ : Type) where
  | found (queries : ℕ) (hs : Halfspace N) (a : A) (st : σ)
      (samples : List (Sample N))
  | failed (queries : ℕ) (e : SamplingError) (a : A) (st : σ)
      (samples : List (Sample N))
  | panicked (queries : ℕ)
  | fuelOut

/-- Drive `sample_next` while the adherer is `Searching`: the source's
`loop { match adh.get_state() { Searching => all_samples.push(*adh.sample_next(classifier)?), FoundBoundary(hs) => break } }`
in `approx_surface`, and the contract under which the explorers step an
adherer. -/
def runAdh {N : ℕ} {A σ : Type} (ops : AdhOps N A σ) :
    ℕ → A → σ → ℕ → List (Sample N) → RunOutcome N A σ
  | 0, _, _, _, _ => .fuelOut
  | fuel + 1, a, st, q, acc =>
    match ops.getState a with
    | .foundBoundary hs => .found q hs a st acc
    | .searching =>
      match ops.sampleNext a st with
      | none => .panicked q
      | some (a2, st2, .error e) => .failed (q + 1) e a2 st2 acc
      | some (a2, st2, .ok s) => runAdh ops fuel a2 st2 (q + 1) (acc ++ [s])

/-- The run invariant behind the `ConstantAdherer` query-count bound: after
`q` successful `sample_next` calls with parameters `δ` and `mr`, the sample
list has length `q`; while no sample has been taken the rotation matrix is
unset and the accumulated angle is `0`; afterwards the accumulated angle is
`(q - 1)·δ`; and a `Searching` adherer that has been stepped at least once
has its angle within the budget. -/
def ConstInvC5 {N : ℕ} (δ mr : ℝ) (a : ConstAdh N) (q : ℕ) : Prop :=
  a.deltaAngle = δ ∧ a.maxRotation = mr ∧ a.samples.length = q ∧
  (a.rot = none → q = 0 ∧ a.angle = 0) ∧
  (a.rot ≠ none → 1 ≤ q ∧ a.angle = ((q - 1 : ℕ) : ℝ) * δ) ∧
  (a.state.isSearching = true → 1 ≤ q → a.angle ≤ mr)

/-- The query count of a run that ended in `FoundBoundary`, if it did. -/
def RunOutcome.queriesFound {N : ℕ} {A σ : Type} : RunOutcome N A σ → Option ℕ
  | .found q _ _ _ _ => some q
  | _ => none

/-- The halfspace of a run that ended in `FoundBoundary`, if it did. -/
def RunOutcome.foundHalfspace {N : ℕ} {A σ : Type} :
    RunOutcome N A σ → Option (Halfspace N)
  | .found _ hs _ _ _ => some hs
  | _ => none

/-- Membership in the plane of a span with a prescribed squared norm:
`w = α·u + β·v` with `α² + β² = c`. -/
def InSpanNorm {N : ℕ} (sp : SpanT N) (c : ℝ) (w : Vec N) : Prop :=
  ∃ α β : ℝ, w = α • sp.u + β • sp.v ∧ α * α + β * β = c

/-- Geometric run invariant of a `ConstantAdherer` started from `pivot` with
displacement `v0`: the displacement and every queried offset stay in the
plane of `Span::new(pivot.n, v0)` with the squared norm of `v0` (rotation is
an isometry of that plane), and a `FoundBoundary` state carries a boundary
point at such an offset from `pivot.b` with the rotated-by-`π/2` normal. -/
def ConstSpanInv {N : ℕ} (pivot : Halfspace N) (v0 : Vec N)
    (a : ConstAdh N) : Prop :=
  a.pivot = pivot ∧ a.span = SpanT.new pivot.n v0 ∧
  (∀ R, a.rot = some R → ∃ θ, R = (SpanT.new pivot.n v0).getRotater θ) ∧
  InSpanNorm (SpanT.new pivot.n v0) (dotV v0 v0) a.v ∧
  (∀ smp ∈ a.samples, ∃ w, InSpanNorm (SpanT.new pivot.n v0) (dotV v0 v0) w ∧
    smp.point = pivot.b + w) ∧
  (∀ hs, a.state = AdhererState.foundBoundary hs →
    ∃ w, InSpanNorm (SpanT.new pivot.n v0) (dotV v0 v0) w ∧
      hs.b = pivot.b + w ∧
      hs.n = normalizeV (mulVecM ((SpanT.new pivot.n v0).getRotater
        (Real.pi / 2)) w))

/-- The analogous geometric run invariant of a `BinarySearchAdherer`. -/
def BsSpanInv {N : ℕ} (pivot : Halfspace N) (v0 : Vec N) (a : BsAdh N) : Prop :=
  a.pivot = pivot ∧ a.rotSpan = SpanT.new pivot.n v0 ∧
  InSpanNorm (SpanT.new pivot.n v0) (dotV v0 v0) a.v ∧
  (∀ tv, a.t = some tv → ∃ w, InSpanNorm (SpanT.new pivot.n v0) (dotV v0 v0) w ∧
    tv = pivot.b + w) ∧
  (∀ hs, a.state = AdhererState.foundBoundary hs →
    ∃ w, InSpanNorm (SpanT.new pivot.n v0) (dotV v0 v0) w ∧
      hs.b = pivot.b + w ∧
      hs.n = normalizeV (mulVecM ((SpanT.new pivot.n v0).getRotater
        (Real.pi / 2)) w))

/-! ### Concrete fixtures used by witnesses and counterexamples -/

/-- A stateful classifier function that replays a fixed script of classes,
ignoring the queried point (a legitimate `FnMut` closure for
`FunctionClassifier`). -/
def scriptG (N : ℕ) (script : List Bool) : ℕ → Vec N → Bool × ℕ :=
  fun k _ => (script.getD k true, k + 1)

/-- The zero vector in dimension 1. -/
def zVec1 : Vec 1 := fun _ => 0

/-- The constant vector `4` in dimension 1. -/
def fourVec1 : Vec 1 := fun _ => 4

/-- The always-WithinMode classifier function in dimension 1. -/
def gTrue1 : Unit → Vec 1 → Bool × Unit := fun st _ => (true, st)

/-- The always-WithinMode total classifier in dimension 1. -/
noncomputable def clsTrue1 : ClassifierF 1 Unit := totalCls gTrue1

/-! ## `create_cardinals` and `approx_surface`
(`src/explorers/mesh_explorer.rs`, `src/boundary_tools/estimation.rs`) -/

/-- `MeshExplorer::create_cardinals(n, basis_vectors)`: takes
`basis_vectors.column(0)` as the alignment vector, rotates the basis by the
angle between it and `n` within `Span::new(n, align_vector)` — skipping the
rotation when that angle is at most `1e-10` — and collects `±column(i)` for
each `i in 1..N`. Stated over dimension `N + 1` since the source reads
column `0`. -/
noncomputable def createCardinals {N : ℕ} (n : Vec (N + 1))
    (basisVectors : Mat (N + 1)) : List (Vec (N + 1)) :=
  let alignVector := colM basisVectors 0
  let span := SpanT.new n alignVector
  let angle := vangle alignVector n
  let axes := if angle ≤ 1e-10 then basisVectors
    else matMulM (span.getRotater angle) basisVectors
  ((List.finRange (N + 1)).drop 1).flatMap
    (fun i => [colM axes i, -colM axes i])

/-- The `for cardinal in cardinals` loop of `approx_surface`: one full
adherer run (the driver `runAdh`) per cardinal, threading the classifier
state, pushing all samples to `all_samples` and the found halfspace to
`neighbors`; a `SamplingError` propagates immediately (the `?`); `none`
models a Rust panic inside `sample_next` or exhaustion of the embedding's
fuel. -/
noncomputable def approxLoop {N : ℕ} {A σ : Type} (ops : AdhOps N A σ)
    (adhereFrom : Halfspace N → Vec N → A) (fuel : ℕ) (d : ℝ)
    (hs : Halfspace N) :
    List (Vec N) → σ → List (Halfspace N) → List (Sample N) →
    Option (Except SamplingError ((List (Halfspace N) × List (Sample N)) × σ))
  | [], st, nbs, smps => some (.ok ((nbs, smps), st))
  | c :: rest, st, nbs, smps =>
    match runAdh ops fuel (adhereFrom hs (d • c)) st 0 [] with
    | .found _ nb _ st2 newSmps =>
        approxLoop ops adhereFrom fuel d hs rest st2 (nbs ++ [nb])
          (smps ++ newSmps)
    | .failed _ e _ _ _ => some (.error e)
    | .panicked _ => none
    | .fuelOut => none

/-- `approx_surface(d, hs, adherer_f, classifier)`
(`src/boundary_tools/estimation.rs`): cardinals from
`create_cardinals(hs.n, identity)`, one adherer run per cardinal, then
`new_n = (Σ neighbor.n) / count` — the neighbor-normal average, WITHOUT
re-normalization — returned as `Halfspace { b: hs.b, n: new_n }` together
with the neighbors and all samples. The adherer factory `adherer_f` is the
function `adhereFrom`; `none` models a Rust panic or exhaustion of the
embedding's fuel. -/
noncomputable def approx_surface {N : ℕ} {A σ : Type} (ops : AdhOps (N + 1) A σ)
    (adhereFrom : Halfspace (N + 1) → Vec (N + 1) → A) (fuel : ℕ) (d : ℝ)
    (hs : Halfspace (N + 1)) (st : σ) :
    Option (Except SamplingError
      ((Halfspace (N + 1) × List (Halfspace (N + 1)) × List (Sample (N + 1)))
        × σ)) :=
  let cardinals := createCardinals hs.n (idM (N + 1))
  match approxLoop ops adhereFrom fuel d hs cardinals st [] [] with
  | none => none
  | some (.error e) => some (.error e)
  | some (.ok ((nbs, smps), st2)) =>
      let newN := sdiv (nbs.foldl (fun acc nb => acc + nb.n) 0)
        ((nbs.length : ℝ))
      some (.ok ((Halfspace.mk hs.b newN, nbs, smps), st2))

/-- The normal of the halfspace returned by `approx_surface`, when it
returns `Ok`. -/
noncomputable def approxNormal {N : ℕ} {A σ : Type} (ops : AdhOps (N + 1) A σ)
    (adhereFrom : Halfspace (N + 1) → Vec (N + 1) → A) (fuel : ℕ) (d : ℝ)
    (hs : Halfspace (N + 1)) (st : σ) : Option (Vec (N + 1)) :=
  match approx_surface ops adhereFrom fuel d hs st with
  | some (.ok ((hs2, _, _), _)) => some hs2.n
  | _ => none

/-- Class-consistency invariant of a `ConstantAdherer` under a pure
classifier `gp`: every recorded sample is `from_class` of its point, and a
`FoundBoundary` state carries a `WithinMode`-classified boundary point. -/
def ConstClassInv {N : ℕ} (gp : Vec N → Bool) (a : ConstAdh N) : Prop :=
  (∀ smp ∈ a.samples, smp = Sample.fromClass smp.point (gp smp.point)) ∧
  (∀ hs, a.state = AdhererState.foundBoundary hs → gp hs.b = true)

/-- Class-consistency invariant of a `BinarySearchAdherer` under a pure
classifier `gp`: the recorded `t` point is `WithinMode`-classified, and a
`FoundBoundary` state carries a `WithinMode`-classified boundary point. -/
def BsClassInv {N : ℕ} (gp : Vec N → Bool) (a : BsAdh N) : Prop :=
  (∀ tv, a.t = some tv → gp tv = true) ∧
  (∀ hs, a.state = AdhererState.foundBoundary hs → gp hs.b = true)

/-- C1 counterexample fixture: the starting halfspace at the origin with
normal `e₀`. -/
noncomputable def hsC1 : Halfspace 2 := Halfspace.mk 0 (stdBasis 2 0)

/-! ## `MeshExplorer` (`src/explorers/mesh_explorer.rs`) -/

/-- The `MeshExplorer<N, F>` struct: the petgraph `tree` is modelled by its
node list (in insertion order, so a node's id is its list position) and its
directed edge list; the `RTree<KnnNode<N>>` by the list of inserted
`(point, payload)` pairs; `F::TargetAdherer` is the type parameter `A`. The
factory `adherer_f` is passed to the operations separately. -/
structure MeshExp (N : ℕ) (A : Type) where
  d : ℝ
  boundary : List (Halfspace N)
  margin : ℝ
  basisVectors : Mat N
  pathQueue : List (ℕ × Vec N)
  currentParent : ℕ
  treeNodes : List (Halfspace N)
  treeEdges : List (ℕ × ℕ)
  knnIndex : List (Vec N × ℕ)
  adherer : Option A

/-- `RTree::nearest_neighbor`, modelled as a fold of the inserted pairs
keeping a closest point (`none` on an empty tree). -/
noncomputable def nearestNeighbor {N : ℕ} (knn : List (Vec N × ℕ))
    (p : Vec N) : Option (Vec N × ℕ) :=
  knn.foldl (fun acc q => match acc with
    | none => some q
    | some best =>
        if normV (q.1 - p) < normV (best.1 - p) then some q else some best)
    none

/-- `MeshExplorer::get_next_paths_from(id)`: reads `self.boundary[id]` — a
panic (`none`) when `id` is out of bounds — and pairs every cardinal of that
halfspace's normal with `id`. -/
noncomputable def MeshExp.getNextPathsFrom {N : ℕ} {A : Type}
    (e : MeshExp (N + 1) A) (id : ℕ) : Option (List (ℕ × Vec (N + 1))) :=
  match e.boundary.get? id with
  | none => none
  | some hs =>
      some ((createCardinals hs.n e.basisVectors).map (fun v => (id, v)))

/-- `MeshExplorer::add_child(hs, parent_id)`: a new tree node whose id is
the current node count, the optional parent edge, the new paths queued from
`get_next_paths_from` (which indexes `self.boundary` with the new id — the
possible panic is `none`), and the `(b, id)` insertion into the knn index. -/
noncomputable def MeshExp.addChild {N : ℕ} {A : Type} (e : MeshExp (N + 1) A)
    (hs : Halfspace (N + 1)) (parentId : Option ℕ) :
    Option (MeshExp (N + 1) A) :=
  let nextId := e.treeNodes.length
  let e1 := { e with
    treeNodes := e.treeNodes ++ [hs]
    treeEdges := match parentId with
      | some pid => e.treeEdges ++ [(pid, nextId)]
      | none => e.treeEdges }
  match e1.getNextPathsFrom nextId with
  | none => none
  | some paths => some { e1 with
      pathQueue := e1.pathQueue ++ paths
      knnIndex := e1.knnIndex ++ [(hs.b, nextId)] }

/-- `MeshExplorer::new(d, root, margin, adherer_f)`: the boundary starts as
`[root]`, everything else empty, then `add_child(root, None)` (whose panic
would propagate: `none`). -/
noncomputable def MeshExp.new {N : ℕ} {A : Type} (d : ℝ)
    (root : Halfspace (N + 1)) (margin : ℝ) : Option (MeshExp (N + 1) A) :=
  MeshExp.addChild
    { d := d
      boundary := [root]
      margin := margin
      basisVectors := idM (N + 1)
      pathQueue := []
      currentParent := 0
      treeNodes := []
      treeEdges := []
      knnIndex := []
      adherer := none } root none

/-- The `while let Some((id, v)) = self.path_queue.dequeue()` loop of
`MeshExplorer::select_parent`: pops paths until one whose jump point
`b + d·v` does not overlap (`check_overlap`: nearest neighbor closer than
`margin`); `none` models the `self.boundary[id]` indexing panic, and the
inner option is `select_parent`'s return value together with the remaining
queue. -/
noncomputable def selectParentLoop {N : ℕ} (d margin : ℝ)
    (boundary : List (Halfspace (N + 1))) (knn : List (Vec (N + 1) × ℕ)) :
    List (ℕ × Vec (N + 1)) →
    Option (Option ((Halfspace (N + 1) × ℕ × Vec (N + 1))
      × List (ℕ × Vec (N + 1))))
  | [] => some none
  | (id, v) :: rest =>
    match boundary.get? id with
    | none => none
    | some hs =>
      match nearestNeighbor knn (hs.b + d • v) with
      | some nrst =>
          if normV ((hs.b + d • v) - nrst.1) < margin then
            selectParentLoop d margin boundary knn rest
          else some (some ((hs, id, v), rest))
      | none => some (some ((hs, id, v), rest))

/-- The opening `if self.adherer.is_none() { if let Some((hs, id, v)) =
self.select_parent() { ... } }` of `MeshExplorer::step`: `select_parent`'s
dequeues stick, and on success the parent id and a fresh adherer
(`adhere_from(hs, v * self.d)`) are installed. -/
noncomputable def MeshExp.selectPhase {N : ℕ} {A : Type}
    (adhereFrom : Halfspace (N + 1) → Vec (N + 1) → A)
    (e : MeshExp (N + 1) A) : Option (MeshExp (N + 1) A) :=
  match e.adherer with
  | some _ => some e
  | none =>
    match selectParentLoop e.d e.margin e.boundary e.knnIndex e.pathQueue with
    | none => none
    | some none => some { e with pathQueue := [] }
    | some (some ((hs, id, v), rest)) =>
        some { e with
          pathQueue := rest
          currentParent := id
          adherer := some (adhereFrom hs (e.d • v)) }

/-- `MeshExplorer::step(classifier)`: the select phase when no adherer is
active; then with an active adherer, one `sample_next` — `Ok` pushes the
found halfspace and `add_child`s it under `current_parent` when the state is
`FoundBoundary`, and returns the sample; `Err` drops the adherer and
propagates; with no adherer left, `Ok(None)` ends exploration. `none`
models any Rust panic inside. -/
noncomputable def MeshExp.step {N : ℕ} {A σ : Type} (ops : AdhOps (N + 1) A σ)
    (adhereFrom : Halfspace (N + 1) → Vec (N + 1) → A)
    (e : MeshExp (N + 1) A) (st : σ) :
    Option (MeshExp (N + 1) A × σ
      × Except SamplingError (Option (Sample (N + 1)))) :=
  match MeshExp.selectPhase adhereFrom e with
  | none => none
  | some e1 =>
    match e1.adherer with
    | none => some (e1, st, .ok none)
    | some adh =>
      match ops.sampleNext adh st with
      | none => none
      | some (_, st2, .error er) =>
          some ({ e1 with adherer := none }, st2, .error er)
      | some (adh2, st2, .ok smp) =>
        match ops.getState adh2 with
        | .searching =>
            some ({ e1 with adherer := some adh2 }, st2, .ok (some smp))
        | .foundBoundary hs =>
          match MeshExp.addChild
              { e1 with boundary := e1.boundary ++ [hs] } hs
              (some e1.currentParent) with
          | none => none
          | some e3 => some ({ e3 with adherer := none }, st2, .ok (some smp))

/-- Iterating `MeshExplorer::step`, threading the classifier state and
dropping the returned samples; `none` when a step panics or errors are
ignored — a step's `Err` result still yields the mutated explorer, as in
the source where the caller may continue. -/
noncomputable def meshRun {N : ℕ} {A σ : Type} (ops : AdhOps (N + 1) A σ)
    (adhereFrom : Halfspace (N + 1) → Vec (N + 1) → A) :
    ℕ → MeshExp (N + 1) A → σ → Option (MeshExp (N + 1) A × σ)
  | 0, e, st => some (e, st)
  | k + 1, e, st =>
    match MeshExp.step ops adhereFrom e st with
    | none => none
    | some (e2, st2, _) => meshRun ops adhereFrom k e2 st2

/-- `get_rtree_from_boundary` (`src/boundary_tools/mod.rs`): the tree of
`(hs.b, index)` pairs. -/
noncomputable def getRtreeFromBoundary {N : ℕ}
    (boundary : List (Halfspace N)) : List (Vec N × ℕ) :=
  boundary.enum.map (fun p => (p.2.b, p.1))

/-- The `for hs in boundary.iter()` loop of `MeshExplorer::load_boundary`:
the first halfspace (empty path queue) is added with no parent, later ones
under their nearest neighbor; an `add_child` panic propagates (`none`), and
the `panic!("Unexpected error while loading")` on a missing neighbor is
`none` too. -/
noncomputable def loadBoundaryLoop {N : ℕ} {A : Type} :
    List (Halfspace (N + 1)) → MeshExp (N + 1) A →
    Option (MeshExp (N + 1) A)
  | [], e => some e
  | hs :: rest, e =>
    if e.pathQueue.isEmpty then
      match e.addChild hs none with
      | none => none
      | some e2 => loadBoundaryLoop rest e2
    else
      match nearestNeighbor e.knnIndex hs.b with
      | some nb =>
        match e.addChild hs (some nb.2) with
        | none => none
        | some e2 => loadBoundaryLoop rest e2
      | none => none

/-- `MeshExplorer::load_boundary(boundary)`: asserts non-emptiness (a panic,
`none`, when violated), replaces the knn index, clears the adherer and the
path queue, runs the loop — and only afterwards replaces `self.boundary`. -/
noncomputable def MeshExp.loadBoundary {N : ℕ} {A : Type}
    (e : MeshExp (N + 1) A) (boundary : List (Halfspace (N + 1))) :
    Option (MeshExp (N + 1) A) :=
  if boundary.isEmpty then none
  else
    match loadBoundaryLoop boundary
        { e with
          knnIndex := getRtreeFromBoundary boundary
          adherer := none
          pathQueue := [] } with
    | none => none
    | some e2 => some { e2 with boundary := boundary }

/-- The tree/index synchronization invariant of a `MeshExplorer`: the tree
nodes are exactly the boundary (ids = positions), and the knn index is
exactly the `(b, position)` list of the boundary. -/
def MeshInv {N : ℕ} {A : Type} (e : MeshExp N A) : Prop :=
  e.treeNodes = e.boundary ∧
  e.knnIndex = e.boundary.enum.map (fun p => (p.2.b, p.1))

/-! ## `RemoteClassifier::classify` (`src/api.rs`) -/

/-- The 8 bytes of a 64-bit word, least-significant first — the wire layout
of one `f64` coordinate on the little-endian targets the crate supports
(`bytemuck::cast_slice` reinterprets the `f64` array in native order). -/
def toLeBytes8 (w : ℕ) : List ℕ :=
  [w % 256, w / 256 % 256, w / 256 ^ 2 % 256, w / 256 ^ 3 % 256,
   w / 256 ^ 4 % 256, w / 256 ^ 5 % 256, w / 256 ^ 6 % 256, w / 256 ^ 7 % 256]

/-- The `TcpStream` of a `RemoteClassifier`, as the bytes written to the
client so far and the bytes waiting to be read from it. -/
structure RemoteState where
  written : List ℕ
  incoming : List ℕ

/-- `RemoteClassifier::classify(p)`: the domain check (`OutOfBounds`), then
`write_all(bytemuck::cast_slice(p.as_slice()))` — the concatenated byte
encodings of the coordinates, with `bitsOf` standing for the IEEE-754 bit
pattern of an `f64` (our reals abstract the floats) — then `read_exact` of
one byte: a missing byte is an `io::Error`, converted by the
`From<io::Error> for SamplingError` impl into `InvalidClassifierResponse`;
a byte above `1` is `InvalidClassifierResponse`; otherwise
`Sample::from_class(p, byte == 1)`. -/
noncomputable def remoteClassify {N : ℕ} (bitsOf : ℝ → ℕ)
    (contains : Vec N → Bool) (p : Vec N) (s : RemoteState) :
    Except SamplingError (Sample N) × RemoteState :=
  if contains p = false then (.error .outOfBounds, s)
  else
    let payload := ((List.finRange N).map
      (fun i => toLeBytes8 (bitsOf (p i)))).flatten
    let s1 := { s with written := s.written ++ payload }
    match s1.incoming with
    | [] => (.error (.invalidClassifierResponse
        "Invalid client response message. IO Error: failed to fill whole buffer"),
        s1)
    | b :: rest =>
      let s2 := { s1 with incoming := rest }
      if b > 1 then
        (.error (.invalidClassifierResponse
          "Remote Classifier received non-bool response?"), s2)
      else (.ok (Sample.fromClass p (b == 1)), s2)

/-- C7 witness fixture: the dimension-2 explorer after one step that
exhausts the path queue (margin `10` makes every cardinal jump overlap the
root). -/
noncomputable def meshC7 : MeshExp (1 + 1) (ConstAdh (1 + 1)) :=
  { d := 1
    boundary := [Halfspace.mk 0 (stdBasis (1 + 1) 0)]
    margin := 10
    basisVectors := idM (1 + 1)
    pathQueue := []
    currentParent := 0
    treeNodes := [Halfspace.mk 0 (stdBasis (1 + 1) 0)]
    treeEdges := []
    knnIndex := [((0 : Vec (1 + 1)), 0)]
    adherer := none }

/-- C6 witness fixture: the parent halfspace at the origin with normal `e₀`. -/
noncomputable def pivotC6 : Halfspace 2 := Halfspace.mk 0 (stdBasis 2 0)

/-- C6 witness fixture: the halfspace found by the scripted
`ConstantAdherer` run from `pivotC6` with displacement `e₁`. -/
noncomputable def hsC6 : Halfspace 2 :=
  Halfspace.mk (stdBasis 2 1)
    (normalizeV (mulVecM ((SpanT.new (stdBasis 2 0) (stdBasis 2 1)).getRotater
      (Real.pi / 2)) (stdBasis 2 1)))

/-! ## Definition section continues below; theorems follow. -/

/-! ## THEOREMS -/

/-! ### Basic facts about `dotV` and `normV` -/

theorem dotV_comm {N : ℕ} (u v : Vec N) : dotV u v = dotV v u := by
  unfold dotV; exact Finset.sum_congr rfl fun i _ => mul_comm _ _

theorem dotV_self_nonneg {N : ℕ} (v : Vec N) : 0 ≤ dotV v v :=
  Finset.sum_nonneg fun i _ => mul_self_nonneg _

theorem dotV_self_eq_zero {N : ℕ} (v : Vec N) : dotV v v = 0 ↔ v = 0 := by
  constructor
  · intro h
    funext i
    have h0 : ∀ j ∈ Finset.univ, (0:ℝ) ≤ v j * v j := fun j _ => mul_self_nonneg _
    have := (Finset.sum_eq_zero_iff_of_nonneg h0).mp h i (Finset.mem_univ i)
    exact mul_self_eq_zero.mp this
  · intro h; subst h; simp [dotV]

theorem normV_nonneg {N : ℕ} (v : Vec N) : 0 ≤ normV v := Real.sqrt_nonneg _

theorem normV_sq {N : ℕ} (v : Vec N) : normV v ^ 2 = dotV v v := by
  unfold normV
  rw [sq, Real.mul_self_sqrt (dotV_self_nonneg v)]

theorem normV_eq_zero {N : ℕ} (v : Vec N) : normV v = 0 ↔ v = 0 := by
  unfold normV
  rw [Real.sqrt_eq_zero (dotV_self_nonneg v)]
  exact dotV_self_eq_zero v

theorem normV_pos {N : ℕ} {v : Vec N} (h : v ≠ 0) : 0 < normV v :=
  lt_of_le_of_ne (normV_nonneg v) (fun hc => h ((normV_eq_zero v).mp hc.symm))

theorem dotV_add_left {N : ℕ} (u v w : Vec N) :
    dotV (u + v) w = dotV u w + dotV v w := by
  unfold dotV
  rw [← Finset.sum_add_distrib]
  exact Finset.sum_congr rfl fun i _ => by simp [add_mul]

theorem dotV_smul_left {N : ℕ} (c : ℝ) (u w : Vec N) :
    dotV (c • u) w = c * dotV u w := by
  unfold dotV
  rw [Finset.mul_sum]
  exact Finset.sum_congr rfl fun i _ => by simp [mul_assoc]

theorem dotV_smul_right {N : ℕ} (c : ℝ) (u w : Vec N) :
    dotV u (c • w) = c * dotV u w := by
  rw [dotV_comm, dotV_smul_left, dotV_comm]

theorem dotV_neg_left {N : ℕ} (u w : Vec N) : dotV (-u) w = -dotV u w := by
  have h : (-u : Vec N) = (-1 : ℝ) • u := by funext i; simp
  rw [h, dotV_smul_left]; ring

theorem dotV_sub_left {N : ℕ} (u v w : Vec N) :
    dotV (u - v) w = dotV u w - dotV v w := by
  have h : (u - v : Vec N) = u + -v := by funext i; simp [sub_eq_add_neg]
  rw [h, dotV_add_left, dotV_neg_left]; ring

theorem dotV_add_right {N : ℕ} (u v w : Vec N) :
    dotV w (u + v) = dotV w u + dotV w v := by
  rw [dotV_comm, dotV_add_left, dotV_comm u w, dotV_comm v w]

theorem normV_smul {N : ℕ} (c : ℝ) (v : Vec N) : normV (c • v) = |c| * normV v := by
  unfold normV
  rw [dotV_smul_left, dotV_smul_right, ← mul_assoc, show c * c = c ^ 2 by ring,
    Real.sqrt_mul (sq_nonneg c), Real.sqrt_sq_eq_abs]

theorem sdiv_eq_smul {N : ℕ} (v : Vec N) (c : ℝ) : sdiv v c = c⁻¹ • v := by
  funext i; simp [sdiv, div_eq_inv_mul]

theorem normalizeV_eq_smul {N : ℕ} (v : Vec N) :
    normalizeV v = (normV v)⁻¹ • v := by
  funext i; simp [normalizeV, div_eq_inv_mul]

theorem dotV_normalizeV_self {N : ℕ} {v : Vec N} (h : v ≠ 0) :
    dotV (normalizeV v) (normalizeV v) = 1 := by
  rw [normalizeV_eq_smul, dotV_smul_left, dotV_smul_right, ← mul_assoc]
  have hv : dotV v v ≠ 0 := fun hc => h ((dotV_self_eq_zero v).mp hc)
  have hn : (normV v)⁻¹ * (normV v)⁻¹ * dotV v v = (normV v ^ 2)⁻¹ * dotV v v := by
    ring
  rw [hn, normV_sq, inv_mul_cancel₀ hv]

theorem normV_normalizeV {N : ℕ} {v : Vec N} (h : v ≠ 0) :
    normV (normalizeV v) = 1 := by
  unfold normV
  rw [dotV_normalizeV_self h, Real.sqrt_one]

theorem normalizeV_smul_norm {N : ℕ} {v : Vec N} (h : v ≠ 0) :
    normV v • normalizeV v = v := by
  rw [normalizeV_eq_smul, smul_smul]
  rw [mul_inv_cancel₀ (ne_of_gt (normV_pos h)), one_smul]

/-! ### Loop algebra: a bisection step halves the bracketing interval -/

theorem sub_add_sdiv_two {N : ℕ} (pt px : Vec N) :
    px - (pt + sdiv (px - pt) 2) = sdiv (px - pt) 2 := by
  funext j; simp only [Pi.sub_apply, Pi.add_apply, sdiv]; ring

theorem sub_sdiv_two_sub {N : ℕ} (pt px : Vec N) :
    (px - sdiv (px - pt) 2) - pt = sdiv (px - pt) 2 := by
  funext j; simp only [Pi.sub_apply, sdiv]; ring

theorem normV_sdiv_two {N : ℕ} (w : Vec N) : normV (sdiv w 2) = normV w / 2 := by
  rw [sdiv_eq_smul, normV_smul, abs_of_pos (by norm_num : (0:ℝ) < (2:ℝ)⁻¹)]
  ring

/-- Master invariant for the `binary_surface_search` loop under a classifier
that answers every query (no `Err` propagation): provided the entry invariant
`s = p_x - p_t` holds, the final state still satisfies it, an `Ok` result is
exactly `Halfspace { b: p_t, n: normalize(p_x - p_t) }` with
`‖p_x - p_t‖ ≤ max_err`, and an `Err` result is exactly `MaxSamplesExceeded`
reached with `i ≥ max_samples` while `‖p_x - p_t‖ > max_err`. -/
theorem bssLoop_spec {N : ℕ} {σ : Type} (maxErr : ℝ) (g : σ → Vec N → Bool × σ)
    (maxSamples : ℕ) :
    ∀ (pt px sv : Vec N) (i : ℕ) (st : σ), sv = px - pt →
      (bssLoop maxErr (totalCls g) maxSamples pt px sv i st).s =
        (bssLoop maxErr (totalCls g) maxSamples pt px sv i st).px -
          (bssLoop maxErr (totalCls g) maxSamples pt px sv i st).pt ∧
      (∀ hs, (bssLoop maxErr (totalCls g) maxSamples pt px sv i st).res = .ok hs →
        hs.b = (bssLoop maxErr (totalCls g) maxSamples pt px sv i st).pt ∧
        hs.n = normalizeV ((bssLoop maxErr (totalCls g) maxSamples pt px sv i st).px -
          (bssLoop maxErr (totalCls g) maxSamples pt px sv i st).pt) ∧
        normV ((bssLoop maxErr (totalCls g) maxSamples pt px sv i st).px -
          (bssLoop maxErr (totalCls g) maxSamples pt px sv i st).pt) ≤ maxErr) ∧
      (∀ e, (bssLoop maxErr (totalCls g) maxSamples pt px sv i st).res = .error e ↔
        e = .maxSamplesExceeded ∧
        (bssLoop maxErr (totalCls g) maxSamples pt px sv i st).i ≥ maxSamples ∧
        maxErr < normV ((bssLoop maxErr (totalCls g) maxSamples pt px sv i st).px -
          (bssLoop maxErr (totalCls g) maxSamples pt px sv i st).pt)) := by
  intro pt px sv i st
  induction pt, px, sv, i, st using bssLoop.induct maxErr (totalCls g) maxSamples with
  | case1 pt px sv i st hg s2 e st2 hcls =>
    intro _
    exact absurd hcls (by simp [totalCls])
  | case2 pt px sv i st hg s2 st2 hcls ih =>
    intro _
    rw [bssLoop, dif_pos hg]
    simp only [hcls]
    exact ih (sub_add_sdiv_two pt px).symm
  | case3 pt px sv i st hg s2 st2 hcls ih =>
    intro _
    rw [bssLoop, dif_pos hg]
    simp only [hcls]
    exact ih (sub_sdiv_two_sub pt px).symm
  | case4 pt px sv i st hg h2 =>
    intro hsv
    rw [bssLoop, dif_neg hg, if_pos h2]
    subst hsv
    refine ⟨rfl, ?_, ?_⟩
    · intro hs h; exact absurd h (by simp)
    · intro e
      constructor
      · intro h
        refine ⟨by injection h with h2; exact h2.symm ▸ rfl, h2.1, h2.2⟩
      · intro ⟨he, _, _⟩; subst he; rfl
  | case5 pt px sv i st hg h2 =>
    intro hsv
    rw [bssLoop, dif_neg hg, if_neg h2]
    subst hsv
    have hle : normV (px - pt) ≤ maxErr := by
      by_contra hgt
      push_neg at hgt
      rcases not_and_or.mp hg with hc | hc
      · exact hc hgt
      · exact h2 ⟨Nat.le_of_not_lt hc, hgt⟩
    refine ⟨rfl, ?_, ?_⟩
    · intro hs h
      injection h with h
      subst h
      exact ⟨rfl, rfl, hle⟩
    · intro e
      constructor
      · intro h; exact absurd h (by simp)
      · intro ⟨_, _, hgt⟩; exact absurd hle (not_le.mpr hgt)

/-- If the interval, halved once per remaining allowed iteration, already
reaches `max_err`, the loop exits with `Ok` and at most `max_samples` total
queries. -/
theorem bssLoop_ok_of_halving {N : ℕ} {σ : Type} (maxErr : ℝ) (g : σ → Vec N → Bool × σ)
    (maxSamples : ℕ) :
    ∀ (pt px sv : Vec N) (i : ℕ) (st : σ), sv = px - pt → i ≤ maxSamples →
      normV (px - pt) / 2 ^ (maxSamples - i) ≤ maxErr →
      ((bssLoop maxErr (totalCls g) maxSamples pt px sv i st).res.isOk = true ∧
        (bssLoop maxErr (totalCls g) maxSamples pt px sv i st).i ≤ maxSamples) := by
  intro pt px sv i st
  induction pt, px, sv, i, st using bssLoop.induct maxErr (totalCls g) maxSamples with
  | case1 pt px sv i st hg s2 e st2 hcls =>
    intro _ _ _
    exact absurd hcls (by simp [totalCls])
  | case2 pt px sv i st hg s2 st2 hcls ih =>
    intro hsv hi hhalf
    rw [bssLoop, dif_pos hg]
    simp only [hcls]
    refine ih (sub_add_sdiv_two pt px).symm (by omega) ?_
    rw [sub_add_sdiv_two pt px, normV_sdiv_two]
    rw [div_div]
    have hilt : i < maxSamples := hg.2
    have h2 : (2:ℝ) * 2 ^ (maxSamples - (i + 1)) = 2 ^ (maxSamples - i) := by
      rw [← pow_succ']
      congr 1
      omega
    rw [h2]
    exact hhalf
  | case3 pt px sv i st hg s2 st2 hcls ih =>
    intro hsv hi hhalf
    rw [bssLoop, dif_pos hg]
    simp only [hcls]
    refine ih (sub_sdiv_two_sub pt px).symm (by omega) ?_
    rw [sub_sdiv_two_sub pt px, normV_sdiv_two]
    rw [div_div]
    have hilt : i < maxSamples := hg.2
    have h2 : (2:ℝ) * 2 ^ (maxSamples - (i + 1)) = 2 ^ (maxSamples - i) := by
      rw [← pow_succ']
      congr 1
      omega
    rw [h2]
    exact hhalf
  | case4 pt px sv i st hg h2 =>
    intro hsv hi hhalf
    exfalso
    subst hsv
    have h0 : maxSamples - i = 0 := by omega
    rw [h0, pow_zero, div_one] at hhalf
    exact absurd hhalf (not_le.mpr h2.2)
  | case5 pt px sv i st hg h2 =>
    intro hsv hi hhalf
    rw [bssLoop, dif_neg hg, if_neg h2]
    exact ⟨rfl, hi⟩

/-- If even halving once per remaining allowed iteration cannot reach
`max_err`, the loop exits with `MaxSamplesExceeded`. -/
theorem bssLoop_err_of_halving {N : ℕ} {σ : Type} (maxErr : ℝ) (g : σ → Vec N → Bool × σ)
    (maxSamples : ℕ) :
    ∀ (pt px sv : Vec N) (i : ℕ) (st : σ), sv = px - pt →
      maxErr < normV (px - pt) / 2 ^ (maxSamples - i) →
      (bssLoop maxErr (totalCls g) maxSamples pt px sv i st).res =
        .error .maxSamplesExceeded := by
  intro pt px sv i st
  induction pt, px, sv, i, st using bssLoop.induct maxErr (totalCls g) maxSamples with
  | case1 pt px sv i st hg s2 e st2 hcls =>
    intro _ _
    exact absurd hcls (by simp [totalCls])
  | case2 pt px sv i st hg s2 st2 hcls ih =>
    intro hsv hhalf
    rw [bssLoop, dif_pos hg]
    simp only [hcls]
    refine ih (sub_add_sdiv_two pt px).symm ?_
    rw [sub_add_sdiv_two pt px, normV_sdiv_two]
    rw [div_div]
    have hilt : i < maxSamples := hg.2
    have h2 : (2:ℝ) * 2 ^ (maxSamples - (i + 1)) = 2 ^ (maxSamples - i) := by
      rw [← pow_succ']
      congr 1
      omega
    rw [h2]
    exact hhalf
  | case3 pt px sv i st hg s2 st2 hcls ih =>
    intro hsv hhalf
    rw [bssLoop, dif_pos hg]
    simp only [hcls]
    refine ih (sub_sdiv_two_sub pt px).symm ?_
    rw [sub_sdiv_two_sub pt px, normV_sdiv_two]
    rw [div_div]
    have hilt : i < maxSamples := hg.2
    have h2 : (2:ℝ) * 2 ^ (maxSamples - (i + 1)) = 2 ^ (maxSamples - i) := by
      rw [← pow_succ']
      congr 1
      omega
    rw [h2]
    exact hhalf
  | case4 pt px sv i st hg h2 =>
    intro hsv hhalf
    rw [bssLoop, dif_neg hg, if_pos h2]
  | case5 pt px sv i st hg h2 =>
    intro hsv hhalf
    exfalso
    subst hsv
    have hnn : (0:ℝ) ≤ normV (px - pt) := normV_nonneg _
    have h1 : (1:ℝ) ≤ 2 ^ (maxSamples - i) := one_le_pow₀ (by norm_num)
    have hle : normV (px - pt) / 2 ^ (maxSamples - i) ≤ normV (px - pt) :=
      div_le_self hnn h1
    have hgt : maxErr < normV (px - pt) := lt_of_lt_of_le hhalf hle
    rcases not_and_or.mp hg with hc | hc
    · exact hc hgt
    · exact h2 ⟨Nat.le_of_not_lt hc, hgt⟩

/-! ### Matrix-vector calculus for the rotater -/

theorem mulVecM_add {N : ℕ} (M P : Mat N) (x : Vec N) :
    mulVecM (M + P) x = mulVecM M x + mulVecM P x := by
  funext i
  simp only [mulVecM, Pi.add_apply, ← Finset.sum_add_distrib]
  exact Finset.sum_congr rfl fun j _ => by ring

theorem mulVecM_smul {N : ℕ} (c : ℝ) (M : Mat N) (x : Vec N) :
    mulVecM (c • M) x = c • mulVecM M x := by
  funext i
  simp only [mulVecM, Pi.smul_apply, smul_eq_mul, Finset.mul_sum]
  exact Finset.sum_congr rfl fun j _ => by ring

theorem mulVecM_sub {N : ℕ} (M P : Mat N) (x : Vec N) :
    mulVecM (M - P) x = mulVecM M x - mulVecM P x := by
  funext i
  simp only [mulVecM, Pi.sub_apply]
  rw [← Finset.sum_sub_distrib]
  exact Finset.sum_congr rfl fun j _ => by ring

theorem mulVecM_idM {N : ℕ} (x : Vec N) : mulVecM (idM N) x = x := by
  funext i
  simp [mulVecM, idM]

theorem mulVecM_outerV {N : ℕ} (u v x : Vec N) :
    mulVecM (outerV u v) x = dotV v x • u := by
  funext i
  simp only [mulVecM, outerV, Pi.smul_apply, smul_eq_mul, dotV]
  rw [Finset.sum_mul]
  exact Finset.sum_congr rfl fun j _ => by ring

/-- The rotater applied to an arbitrary vector, in terms of the two dot
products with the span vectors. -/
theorem rotater_apply {N : ℕ} (sp : SpanT N) (θ : ℝ) (x : Vec N) :
    mulVecM (sp.getRotater θ) x =
      x + Real.sin θ • (dotV sp.v x • sp.u - dotV sp.u x • sp.v)
        + (Real.cos θ - 1) • (dotV sp.v x • sp.v + dotV sp.u x • sp.u) := by
  unfold SpanT.getRotater
  rw [mulVecM_add, mulVecM_add, mulVecM_idM, mulVecM_smul, mulVecM_smul,
    mulVecM_sub, mulVecM_add, mulVecM_outerV, mulVecM_outerV, mulVecM_outerV,
    mulVecM_outerV]

/-- The rotater is the identity on the orthogonal complement of the span. -/
theorem rotater_fix_perp {N : ℕ} (sp : SpanT N) (θ : ℝ) (w : Vec N)
    (hu : dotV sp.u w = 0) (hv : dotV sp.v w = 0) :
    mulVecM (sp.getRotater θ) w = w := by
  rw [rotater_apply, hu, hv]
  funext i
  simp

/-- The rotater acts on the span of an orthonormal pair `(u, v)` as the plane
rotation by `θ` (in the `u`-towards-`-v` sense of the source's sign
convention). -/
theorem rotater_apply_span {N : ℕ} (sp : SpanT N)
    (ho : IsOrthonormalPair sp.u sp.v) (θ α β : ℝ) :
    mulVecM (sp.getRotater θ) (α • sp.u + β • sp.v) =
      (α * Real.cos θ + β * Real.sin θ) • sp.u
        + (β * Real.cos θ - α * Real.sin θ) • sp.v := by
  obtain ⟨huu, hvv, huv⟩ := ho
  have hvu : dotV sp.v sp.u = 0 := (dotV_comm sp.u sp.v) ▸ huv
  have hdu : dotV sp.u (α • sp.u + β • sp.v) = α := by
    rw [dotV_add_right, dotV_smul_right, dotV_smul_right, huu, huv]; ring
  have hdv : dotV sp.v (α • sp.u + β • sp.v) = β := by
    rw [dotV_add_right, dotV_smul_right, dotV_smul_right, hvu, hvv]; ring
  rw [rotater_apply, hdu, hdv]
  funext i
  simp only [Pi.add_apply, Pi.sub_apply, Pi.smul_apply, smul_eq_mul]
  ring

/-- Dot product of two combinations of an orthonormal pair. -/
theorem dotV_combo {N : ℕ} {u v : Vec N} (ho : IsOrthonormalPair u v)
    (α β γ δ : ℝ) :
    dotV (α • u + β • v) (γ • u + δ • v) = α * γ + β * δ := by
  obtain ⟨huu, hvv, huv⟩ := ho
  have hvu : dotV v u = 0 := (dotV_comm u v) ▸ huv
  rw [dotV_add_left, dotV_add_right, dotV_add_right, dotV_smul_left,
    dotV_smul_left, dotV_smul_left, dotV_smul_left, dotV_smul_right,
    dotV_smul_right, dotV_smul_right, dotV_smul_right, huu, hvv, huv, hvu]
  ring

/-- The rotater preserves dot products of vectors in the span (rotation is an
isometry of the plane). -/
theorem rotater_dot_self_span {N : ℕ} (sp : SpanT N)
    (ho : IsOrthonormalPair sp.u sp.v) (θ α β : ℝ) :
    dotV (mulVecM (sp.getRotater θ) (α • sp.u + β • sp.v))
        (mulVecM (sp.getRotater θ) (α • sp.u + β • sp.v)) =
      α * α + β * β := by
  rw [rotater_apply_span sp ho, dotV_combo ho]
  have hpyth : Real.sin θ ^ 2 + Real.cos θ ^ 2 = 1 := Real.sin_sq_add_cos_sq θ
  nlinarith [hpyth]

/-- Orthonormality of `Span::new(u, v)` for a nonzero `u` and a `v` that is
not parallel to it (nonzero Gram-Schmidt residual). -/
theorem spanNew_orthonormal {N : ℕ} {u v : Vec N} (hu : u ≠ 0)
    (hres : gsResidual u v ≠ 0) :
    IsOrthonormalPair (SpanT.new u v).u (SpanT.new u v).v := by
  have hspu : (SpanT.new u v).u = normalizeV u := rfl
  have hspv : (SpanT.new u v).v = normalizeV (gsResidual u v) := rfl
  refine ⟨?_, ?_, ?_⟩
  · rw [hspu]; exact dotV_normalizeV_self hu
  · rw [hspv]; exact dotV_normalizeV_self hres
  · rw [hspu, hspv, normalizeV_eq_smul (gsResidual u v), dotV_smul_right]
    have hinner : dotV (normalizeV u) (gsResidual u v) = 0 := by
      unfold gsResidual
      rw [dotV_comm, dotV_sub_left, dotV_smul_left, dotV_comm (normalizeV v),
        dotV_normalizeV_self hu]
      ring
    rw [hinner]
    ring

/-! ### C8: Span orthonormality and exact rotation -/

/-- **C8.** For every pair of input vectors `u, v` (with `u` nonzero and `v`
not parallel to `u`, so that the two normalizations of `Span::new` are
well-defined), `Span::new(u, v)` yields an orthonormal pair, and the matrix
returned by `get_rotater` at angle `θ` fixes every vector orthogonal to the
span, acts on the span as the plane rotation by `θ`, and moves every nonzero
vector of the span by the exact angle `θ` (for `θ ∈ [0, π]`, the range of
nalgebra's `angle`). -/
theorem claim_C8_span_orthonormal_rotater {N : ℕ} (u v : Vec N) (hu : u ≠ 0)
    (hres : gsResidual u v ≠ 0) :
    IsOrthonormalPair (SpanT.new u v).u (SpanT.new u v).v ∧
    (∀ θ w, dotV (SpanT.new u v).u w = 0 → dotV (SpanT.new u v).v w = 0 →
      mulVecM ((SpanT.new u v).getRotater θ) w = w) ∧
    (∀ (θ α β : ℝ), mulVecM ((SpanT.new u v).getRotater θ)
        (α • (SpanT.new u v).u + β • (SpanT.new u v).v) =
      (α * Real.cos θ + β * Real.sin θ) • (SpanT.new u v).u
        + (β * Real.cos θ - α * Real.sin θ) • (SpanT.new u v).v) ∧
    (∀ (θ α β : ℝ), 0 ≤ θ → θ ≤ Real.pi → ¬(α = 0 ∧ β = 0) →
      vangle (α • (SpanT.new u v).u + β • (SpanT.new u v).v)
        (mulVecM ((SpanT.new u v).getRotater θ)
          (α • (SpanT.new u v).u + β • (SpanT.new u v).v)) = θ) := by
  have ho := spanNew_orthonormal hu hres
  refine ⟨ho, fun θ w h1 h2 => rotater_fix_perp _ θ w h1 h2,
    fun θ α β => rotater_apply_span _ ho θ α β, ?_⟩
  intro θ α β hθ0 hθπ hαβ
  set sp := SpanT.new u v
  have hx2 : dotV (α • sp.u + β • sp.v) (α • sp.u + β • sp.v) = α * α + β * β :=
    dotV_combo ho α β α β
  have hxRx : dotV (α • sp.u + β • sp.v)
      (mulVecM (sp.getRotater θ) (α • sp.u + β • sp.v)) =
      (α * α + β * β) * Real.cos θ := by
    rw [rotater_apply_span sp ho, dotV_combo ho]
    ring
  have hRx2 := rotater_dot_self_span sp ho θ α β
  have hpos : 0 < α * α + β * β := by
    rcases not_and_or.mp hαβ with hα | hβ
    · have h1 : 0 < α * α := mul_self_pos.mpr hα
      nlinarith [mul_self_nonneg β]
    · have h1 : 0 < β * β := mul_self_pos.mpr hβ
      nlinarith [mul_self_nonneg α]
  unfold vangle normV
  rw [hx2, hxRx, hRx2]
  have hsq : Real.sqrt (α * α + β * β) * Real.sqrt (α * α + β * β) =
      α * α + β * β := Real.mul_self_sqrt (le_of_lt hpos)
  rw [hsq, mul_comm (α * α + β * β) (Real.cos θ), mul_div_assoc,
    div_self (ne_of_gt hpos), mul_one]
  exact Real.arccos_cos hθ0 hθπ

/-- Closed witness for C8, at `u = e₀`, `v = e₁` in dimension 2. -/
theorem claim_C8_span_orthonormal_rotater_witness :
    stdBasis 2 0 ≠ 0 ∧ gsResidual (stdBasis 2 0) (stdBasis 2 1) ≠ 0 ∧
    IsOrthonormalPair (SpanT.new (stdBasis 2 0) (stdBasis 2 1)).u
      (SpanT.new (stdBasis 2 0) (stdBasis 2 1)).v := by
  have h1 : stdBasis 2 0 ≠ 0 := by
    intro h
    have := congrFun h 0
    simp [stdBasis] at this
  have hd00 : dotV (stdBasis 2 0) (stdBasis 2 0) = 1 := by
    simp [dotV, stdBasis, Fin.sum_univ_two]
  have hd11 : dotV (stdBasis 2 1) (stdBasis 2 1) = 1 := by
    simp [dotV, stdBasis, Fin.sum_univ_two]
  have hn0 : normalizeV (stdBasis 2 0) = stdBasis 2 0 := by
    funext i
    simp [normalizeV, normV, hd00]
  have hn1 : normalizeV (stdBasis 2 1) = stdBasis 2 1 := by
    funext i
    simp [normalizeV, normV, hd11]
  have hd01 : dotV (stdBasis 2 0) (stdBasis 2 1) = 0 := by
    simp [dotV, stdBasis, Fin.sum_univ_two]
  have hres : gsResidual (stdBasis 2 0) (stdBasis 2 1) = stdBasis 2 1 := by
    unfold gsResidual
    rw [hn0, hn1, hd01]
    funext i
    simp
  have h2 : gsResidual (stdBasis 2 0) (stdBasis 2 1) ≠ 0 := by
    rw [hres]
    intro h
    have := congrFun h 1
    simp [stdBasis] at this
  exact ⟨h1, h2, (claim_C8_span_orthonormal_rotater _ _ h1 h2).1⟩

/-! ### C3: functional correctness of `binary_surface_search` -/

theorem normV_zero_vec {N : ℕ} : normV (0 : Vec N) = 0 := by
  simp [normV, dotV]

/-- **C3.** For every BoundaryPair `(t, x)`, every `max_err` and every
classifier that answers all queries without error: `binary_surface_search`
maintains a pair `(p_t, p_x)` starting at `(t, x)` (the `bssLoop` embedding,
which at each step classifies the midpoint `p_t + (p_x - p_t)/2` and replaces
`p_t` on WithinMode or `p_x` on OutOfMode); when it returns `Ok` the final
pair satisfies `‖p_x - p_t‖ ≤ max_err` and the result is
`Halfspace { b: p_t, n: normalize(p_x - p_t) }`; and it returns an error
exactly when that error is `MaxSamplesExceeded`, the iteration count has
consumed the cap, and still `‖p_x - p_t‖ > max_err`. -/
theorem claim_C3_binary_surface_search {N : ℕ} {σ : Type} (maxErr : ℝ)
    (g : σ → Vec N → Bool × σ) (maxSamples : ℕ) (bPair : BoundaryPair N)
    (st : σ) :
    (∀ hs, binary_surface_search maxErr bPair maxSamples (totalCls g) st = .ok hs →
      hs.b = (bssLoop maxErr (totalCls g) maxSamples bPair.t bPair.x
        (bPair.x - bPair.t) 0 st).pt ∧
      hs.n = normalizeV ((bssLoop maxErr (totalCls g) maxSamples bPair.t bPair.x
          (bPair.x - bPair.t) 0 st).px -
        (bssLoop maxErr (totalCls g) maxSamples bPair.t bPair.x
          (bPair.x - bPair.t) 0 st).pt) ∧
      normV ((bssLoop maxErr (totalCls g) maxSamples bPair.t bPair.x
          (bPair.x - bPair.t) 0 st).px -
        (bssLoop maxErr (totalCls g) maxSamples bPair.t bPair.x
          (bPair.x - bPair.t) 0 st).pt) ≤ maxErr) ∧
    (∀ e, binary_surface_search maxErr bPair maxSamples (totalCls g) st = .error e ↔
      e = .maxSamplesExceeded ∧
      (bssLoop maxErr (totalCls g) maxSamples bPair.t bPair.x
        (bPair.x - bPair.t) 0 st).i ≥ maxSamples ∧
      maxErr < normV ((bssLoop maxErr (totalCls g) maxSamples bPair.t bPair.x
          (bPair.x - bPair.t) 0 st).px -
        (bssLoop maxErr (totalCls g) maxSamples bPair.t bPair.x
          (bPair.x - bPair.t) 0 st).pt)) := by
  have h := bssLoop_spec maxErr g maxSamples bPair.t bPair.x
    (bPair.x - bPair.t) 0 st rfl
  exact ⟨h.2.1, h.2.2⟩

/-- Closed witness for C3, at a trivial dimension-1 instance in which the
bracketing pair already satisfies the tolerance. -/
theorem claim_C3_binary_surface_search_witness :
    binary_surface_search 1 ⟨zVec1, zVec1⟩ 5 clsTrue1 () =
      .ok ⟨zVec1, normalizeV (zVec1 - zVec1)⟩ ∧
    normV ((bssLoop 1 clsTrue1 5 zVec1 zVec1 (zVec1 - zVec1) 0 ()).px -
      (bssLoop 1 clsTrue1 5 zVec1 zVec1 (zVec1 - zVec1) 0 ()).pt) ≤ 1 := by
  have hsub : (zVec1 - zVec1 : Vec 1) = 0 := by
    funext i; simp [zVec1]
  have hnorm : normV (zVec1 - zVec1) = 0 := by
    rw [hsub, normV_zero_vec]
  have hbss : binary_surface_search 1 ⟨zVec1, zVec1⟩ 5 clsTrue1 () =
      .ok ⟨zVec1, normalizeV (zVec1 - zVec1)⟩ := by
    unfold binary_surface_search
    rw [bssLoop, dif_neg (by rw [hnorm]; norm_num), if_neg (by norm_num)]
  refine ⟨hbss, ?_⟩
  exact ((claim_C3_binary_surface_search 1 gTrue1 5 ⟨zVec1, zVec1⟩ ()).1 _ hbss).2.2

/-! ### C4: the `⌈log₂(Δ/d)⌉` query budget -/

/-- With `Δ > d > 0` and `m = ⌈log₂(Δ/d)⌉`, halving `Δ` `m` times reaches
`d`, but halving it `m - 1` times does not. -/
theorem ceil_log2_halving (Δ d : ℝ) (hd : 0 < d) (hΔ : d < Δ) :
    Δ / 2 ^ ⌈Real.logb 2 (Δ / d)⌉₊ ≤ d ∧
      d < Δ / 2 ^ (⌈Real.logb 2 (Δ / d)⌉₊ - 1) := by
  have hR : 1 < Δ / d := (one_lt_div hd).mpr hΔ
  have hRpos : 0 < Δ / d := lt_trans zero_lt_one hR
  have hlog : 0 < Real.logb 2 (Δ / d) := Real.logb_pos (by norm_num) hR
  have hm1 : 0 < ⌈Real.logb 2 (Δ / d)⌉₊ := Nat.ceil_pos.mpr hlog
  constructor
  · have hle : Real.logb 2 (Δ / d) ≤ (⌈Real.logb 2 (Δ / d)⌉₊ : ℝ) := Nat.le_ceil _
    have h2 : Δ / d ≤ (2:ℝ) ^ ((⌈Real.logb 2 (Δ / d)⌉₊ : ℕ) : ℝ) :=
      (Real.logb_le_iff_le_rpow (by norm_num) hRpos).mp hle
    rw [Real.rpow_natCast] at h2
    have hpow : (0:ℝ) < 2 ^ ⌈Real.logb 2 (Δ / d)⌉₊ := by positivity
    rw [div_le_iff₀ hpow]
    calc Δ = (Δ / d) * d := by field_simp
    _ ≤ (2:ℝ) ^ ⌈Real.logb 2 (Δ / d)⌉₊ * d := by
        exact mul_le_mul_of_nonneg_right h2 (le_of_lt hd)
    _ = d * 2 ^ ⌈Real.logb 2 (Δ / d)⌉₊ := by ring
  · have hlt : ((⌈Real.logb 2 (Δ / d)⌉₊ - 1 : ℕ) : ℝ) < Real.logb 2 (Δ / d) :=
      Nat.lt_ceil.mp (by omega)
    have h2 : (2:ℝ) ^ ((⌈Real.logb 2 (Δ / d)⌉₊ - 1 : ℕ) : ℝ) < Δ / d :=
      (Real.lt_logb_iff_rpow_lt (by norm_num) hRpos).mp hlt
    rw [Real.rpow_natCast] at h2
    have hpow : (0:ℝ) < 2 ^ (⌈Real.logb 2 (Δ / d)⌉₊ - 1) := by positivity
    rw [lt_div_iff₀ hpow]
    calc d * 2 ^ (⌈Real.logb 2 (Δ / d)⌉₊ - 1)
        = 2 ^ (⌈Real.logb 2 (Δ / d)⌉₊ - 1) * d := by ring
    _ < (Δ / d) * d := by exact mul_lt_mul_of_pos_right h2 hd
    _ = Δ := by field_simp

/-- **C4.** For an initial pair with separation `Δ = ‖x - t‖ > d` and target
error `d`, with a classifier answering all queries without error:
`binary_surface_search` with `max_samples = ⌈log₂(Δ/d)⌉` returns `Ok` after
at most `⌈log₂(Δ/d)⌉` classifier queries (the final `i` of the loop), and
with `max_samples = ⌈log₂(Δ/d)⌉ - 1` it returns `MaxSamplesExceeded`. -/
theorem claim_C4_binary_surface_search_budget {N : ℕ} {σ : Type}
    (g : σ → Vec N → Bool × σ) (d : ℝ) (bPair : BoundaryPair N) (st : σ)
    (hd : 0 < d) (hΔ : d < normV (bPair.x - bPair.t)) :
    ((binary_surface_search d bPair ⌈Real.logb 2 (normV (bPair.x - bPair.t) / d)⌉₊
        (totalCls g) st).isOk = true ∧
      (bssLoop d (totalCls g) ⌈Real.logb 2 (normV (bPair.x - bPair.t) / d)⌉₊
        bPair.t bPair.x (bPair.x - bPair.t) 0 st).i ≤
        ⌈Real.logb 2 (normV (bPair.x - bPair.t) / d)⌉₊) ∧
    binary_surface_search d bPair
        (⌈Real.logb 2 (normV (bPair.x - bPair.t) / d)⌉₊ - 1)
        (totalCls g) st = .error .maxSamplesExceeded := by
  obtain ⟨h1, h2⟩ := ceil_log2_halving (normV (bPair.x - bPair.t)) d hd hΔ
  constructor
  · have h := bssLoop_ok_of_halving d g
      ⌈Real.logb 2 (normV (bPair.x - bPair.t) / d)⌉₊ bPair.t bPair.x
      (bPair.x - bPair.t) 0 st rfl (Nat.zero_le _) (by simpa using h1)
    exact h
  · exact bssLoop_err_of_halving d g
      (⌈Real.logb 2 (normV (bPair.x - bPair.t) / d)⌉₊ - 1) bPair.t bPair.x
      (bPair.x - bPair.t) 0 st rfl (by simpa using h2)

/-- Closed witness for C4, at `t = 0`, `x = 4`, `d = 1` in dimension 1. -/
theorem claim_C4_binary_surface_search_budget_witness :
    (0:ℝ) < 1 ∧ (1:ℝ) < normV (fourVec1 - zVec1) ∧
    (((binary_surface_search 1 ⟨zVec1, fourVec1⟩
        ⌈Real.logb 2 (normV (fourVec1 - zVec1) / 1)⌉₊ clsTrue1 ()).isOk = true ∧
      (bssLoop 1 clsTrue1 ⌈Real.logb 2 (normV (fourVec1 - zVec1) / 1)⌉₊
        zVec1 fourVec1 (fourVec1 - zVec1) 0 ()).i ≤
        ⌈Real.logb 2 (normV (fourVec1 - zVec1) / 1)⌉₊) ∧
    binary_surface_search 1 ⟨zVec1, fourVec1⟩
        (⌈Real.logb 2 (normV (fourVec1 - zVec1) / 1)⌉₊ - 1) clsTrue1 () =
      .error .maxSamplesExceeded) := by
  have h16 : dotV (fourVec1 - zVec1) (fourVec1 - zVec1) = 16 := by
    simp [dotV, fourVec1, zVec1, Fin.sum_univ_one]
    norm_num
  have hn4 : normV (fourVec1 - zVec1) = 4 := by
    rw [normV, h16, show (16:ℝ) = 4 ^ 2 by norm_num,
      Real.sqrt_sq (by norm_num : (0:ℝ) ≤ 4)]
  refine ⟨by norm_num, by rw [hn4]; norm_num, ?_⟩
  exact claim_C4_binary_surface_search_budget gTrue1 1 ⟨zVec1, fourVec1⟩ ()
    (by norm_num) (by rw [hn4]; norm_num)

/-! ### `ConstantAdherer` step structure -/

theorem detectCrossing_eq_or {N : ℕ} (a1 : ConstAdh N) (cur : Sample N) :
    a1.detectCrossing cur = a1 ∨
    ∃ hs, a1.detectCrossing cur = { a1 with state := .foundBoundary hs } := by
  unfold ConstAdh.detectCrossing
  split
  · right; exact ⟨_, rfl⟩
  · right; exact ⟨_, rfl⟩
  · left; rfl

theorem detectCrossing_of_empty {N : ℕ} (a1 : ConstAdh N) (cur : Sample N)
    (h : a1.samples = []) : a1.detectCrossing cur = a1 := by
  unfold ConstAdh.detectCrossing
  rw [h]
  cases cur <;> rfl

/-- Full case analysis of the tail of a successful `sample_next`. -/
theorem constAdh_afterSample_spec {N : ℕ} {σ : Type} (a1 : ConstAdh N)
    (cur : Sample N) (st1 : σ) (a2 : ConstAdh N) (st2 : σ)
    (res : Except SamplingError (Sample N))
    (h : a1.afterSample cur st1 = (a2, st2, res)) :
    a2.deltaAngle = a1.deltaAngle ∧ a2.maxRotation = a1.maxRotation ∧
    a2.pivot = a1.pivot ∧ a2.span = a1.span ∧ a2.angle = a1.angle ∧
    a2.rot = a1.rot ∧ a2.v = a1.v ∧ st2 = st1 ∧
    ((res = .ok cur ∧ a2.samples = a1.samples ++ [cur] ∧
        (a2.state.isSearching = true → a2.angle ≤ a2.maxRotation)) ∨
      (res = .error .boundaryLost ∧ a2.state.isSearching = true ∧
        a2.angle > a2.maxRotation ∧ a2.samples = a1.samples)) ∧
    (a1.samples = [] → a2.state = a1.state) := by
  unfold ConstAdh.afterSample at h
  rcases detectCrossing_eq_or a1 cur with hd | ⟨hsf, hd⟩ <;>
    rw [hd] at h <;>
    dsimp only [] at h <;>
    split_ifs at h with hif <;>
    simp only [Prod.mk.injEq] at h <;>
    obtain ⟨rfl, rfl, rfl⟩ := h
  · exact ⟨rfl, rfl, rfl, rfl, rfl, rfl, rfl, rfl,
      Or.inr ⟨rfl, hif.1, hif.2, rfl⟩, fun _ => rfl⟩
  · refine ⟨rfl, rfl, rfl, rfl, rfl, rfl, rfl, rfl,
      Or.inl ⟨rfl, rfl, ?_⟩, fun _ => rfl⟩
    intro hsearch
    by_contra hgt
    exact hif ⟨hsearch, lt_of_not_le hgt⟩
  · refine ⟨rfl, rfl, rfl, rfl, rfl, rfl, rfl, rfl,
      Or.inr ⟨rfl, hif.1, hif.2, rfl⟩, ?_⟩
    intro hemp
    exact congrArg ConstAdh.state
      (hd.symm.trans (detectCrossing_of_empty a1 cur hemp))
  · refine ⟨rfl, rfl, rfl, rfl, rfl, rfl, rfl, rfl,
      Or.inl ⟨rfl, rfl, ?_⟩, ?_⟩
    · intro hsearch
      by_contra hgt
      exact hif ⟨hsearch, lt_of_not_le hgt⟩
    · intro hemp
      simpa using congrArg ConstAdh.state
        (hd.symm.trans (detectCrossing_of_empty a1 cur hemp))

/-- One `sample_next` step of the `ConstantAdherer` under a never-erroring
classifier: the parameters are preserved; the angle stays at `0` on the
initial sample and otherwise grows by `delta_angle`; the rotation matrix is
set afterwards; an `Ok` appends exactly the new sample and, if still
`Searching`, respects the rotation budget; an `Err` is `BoundaryLost` exactly
in the still-`Searching`-over-budget situation; and the state cannot change
on the very first query. -/
theorem constAdh_step_total {N : ℕ} {σ : Type} (g : σ → Vec N → Bool × σ)
    (a : ConstAdh N) (st : σ) (a2 : ConstAdh N) (st2 : σ)
    (res : Except SamplingError (Sample N))
    (hstep : a.sampleNext (totalCls g) st = (a2, st2, res)) :
    a2.deltaAngle = a.deltaAngle ∧ a2.maxRotation = a.maxRotation ∧
    a2.pivot = a.pivot ∧ a2.span = a.span ∧
    (a.rot = none → a2.angle = a.angle) ∧
    (a.rot ≠ none → a2.angle = a.angle + a.deltaAngle) ∧
    a2.rot ≠ none ∧
    (∀ s, res = .ok s → a2.samples = a.samples ++ [s] ∧
      (a2.state.isSearching = true → a2.angle ≤ a2.maxRotation)) ∧
    (∀ e, res = .error e → e = .boundaryLost ∧ a2.state.isSearching = true ∧
      a2.angle > a2.maxRotation) ∧
    (a.samples = [] → a2.state = a.state) := by
  unfold ConstAdh.sampleNext at hstep
  cases hrot : a.rot with
  | none =>
    rw [hrot] at hstep
    unfold ConstAdh.takeInitialSample at hstep
    simp only [totalCls] at hstep
    obtain ⟨h1, h2, h3, h4, h5, h6, h7, h8, h9, h10⟩ :=
      constAdh_afterSample_spec _ _ _ _ _ _ hstep
    refine ⟨by simp [h1], by simp [h2], by simp [h3], by simp [h4],
      fun _ => by simp [h5], fun hc => absurd rfl hc, by simp [h6], ?_, ?_, ?_⟩
    · intro s hres
      rcases h9 with ⟨hok, hsm, hbound⟩ | ⟨herr, _, _, _⟩
      · rw [hres] at hok
        injection hok with hok
        subst hok
        exact ⟨by simpa using hsm, hbound⟩
      · rw [hres] at herr; exact absurd herr (by simp)
    · intro e hres
      rcases h9 with ⟨hok, _, _⟩ | ⟨herr, hsearch, hgt, _⟩
      · rw [hres] at hok; exact absurd hok (by simp)
      · rw [hres] at herr
        injection herr with herr
        exact ⟨herr, hsearch, hgt⟩
    · intro hemp
      have := h10 (by simpa using hemp)
      simpa using this
  | some rotm =>
    rw [hrot] at hstep
    unfold ConstAdh.takeSample at hstep
    simp only [totalCls] at hstep
    obtain ⟨h1, h2, h3, h4, h5, h6, h7, h8, h9, h10⟩ :=
      constAdh_afterSample_spec _ _ _ _ _ _ hstep
    refine ⟨by simp [h1], by simp [h2], by simp [h3], by simp [h4],
      fun hc => Option.noConfusion hc,
      fun _ => by simp [h5], by simp [h6, hrot], ?_, ?_, ?_⟩
    · intro s hres
      rcases h9 with ⟨hok, hsm, hbound⟩ | ⟨herr, _, _, _⟩
      · rw [hres] at hok
        injection hok with hok
        subst hok
        exact ⟨by simpa using hsm, hbound⟩
      · rw [hres] at herr; exact absurd herr (by simp)
    · intro e hres
      rcases h9 with ⟨hok, _, _⟩ | ⟨herr, hsearch, hgt, _⟩
      · rw [hres] at hok; exact absurd hok (by simp)
      · rw [hres] at herr
        injection herr with herr
        exact ⟨herr, hsearch, hgt⟩
    · intro hemp
      have := h10 (by simpa using hemp)
      simpa using this

/-! ### C5: the `ConstantAdherer` query budget -/

/-- Driving a `ConstantAdherer` with a never-erroring classifier: a run that
ends in `FoundBoundary` makes at most `⌊max_rotation / delta_angle⌋ + 2`
classifier queries. -/
theorem runAdh_const_found_bound {N : ℕ} {σ : Type} (g : σ → Vec N → Bool × σ)
    (δ mr : ℝ) (hδ : 0 < δ) :
    ∀ (fuel : ℕ) (a : ConstAdh N) (st : σ) (q : ℕ) (acc : List (Sample N))
      (q' : ℕ) (hs : Halfspace N) (a1 : ConstAdh N) (st1 : σ)
      (smps : List (Sample N)),
      runAdh (constOps (totalCls g)) fuel a st q acc = .found q' hs a1 st1 smps →
      ((a.state.isSearching = true ∧ ConstInvC5 δ mr a q) ∨
        (a.state.isSearching = false ∧ q ≤ ⌊mr / δ⌋₊ + 2)) →
      q' ≤ ⌊mr / δ⌋₊ + 2 := by
  intro fuel
  induction fuel with
  | zero =>
    intro a st q acc q' hs a1 st1 smps hrun _
    simp [runAdh] at hrun
  | succ n ih =>
    intro a st q acc q' hs a1 st1 smps hrun hinv
    rw [runAdh] at hrun
    cases hstate : a.state with
    | foundBoundary hsf =>
      simp only [constOps, hstate] at hrun
      rcases hinv with ⟨hsearch, _⟩ | ⟨_, hq⟩
      · rw [hstate] at hsearch
        exact absurd hsearch (by simp [AdhererState.isSearching])
      · cases hrun
        exact hq
    | searching =>
      rcases hinv with ⟨_, hinv⟩ | ⟨hns, _⟩
      · rcases hsn : a.sampleNext (totalCls g) st with ⟨a2, st2, res⟩
        simp only [constOps, hstate, hsn] at hrun
        obtain ⟨h1, h2, _, _, h5, h6, h7, hok, herr, hfirst⟩ :=
          constAdh_step_total g a st a2 st2 res hsn
        obtain ⟨hiδ, himr, hilen, hirotn, hirots, hibound⟩ := hinv
        cases res with
        | error e => simp at hrun
        | ok s =>
          obtain ⟨hsm, hbound2⟩ := hok s rfl
          refine ih a2 st2 (q + 1) (acc ++ [s]) q' hs a1 st1 smps hrun ?_
          cases hstate2 : a2.state with
          | searching =>
            left
            refine ⟨rfl, ?_, ?_, ?_, ?_, ?_, ?_⟩
            · rw [h1, hiδ]
            · rw [h2, himr]
            · rw [hsm, List.length_append, hilen]; rfl
            · intro hc; exact absurd hc h7
            · intro _
              refine ⟨by omega, ?_⟩
              cases hrota : a.rot with
              | none =>
                obtain ⟨hq0, hang0⟩ := hirotn hrota
                rw [h5 hrota, hang0, hq0]
                norm_num
              | some rotm =>
                obtain ⟨hq1, hang⟩ := hirots (by rw [hrota]; simp)
                rw [h6 (by rw [hrota]; simp), hang, hiδ]
                have hcast : ((q + 1 - 1 : ℕ) : ℝ) = ((q - 1 : ℕ) : ℝ) + 1 := by
                  have hqq : q + 1 - 1 = q := by omega
                  rw [hqq, Nat.cast_sub hq1]
                  ring
                rw [hcast]
                ring
            · intro hsearch2 _
              have hb := hbound2 (by rw [hstate2]; rfl)
              rw [h2, himr] at hb
              exact hb
          | foundBoundary hsf2 =>
            right
            refine ⟨rfl, ?_⟩
            have hnonempty : a.samples ≠ [] := by
              intro hemp
              have hcontra := hfirst hemp
              rw [hstate, hstate2] at hcontra
              exact absurd hcontra (by simp)
            have hq1 : 1 ≤ q := by
              rw [← hilen]
              exact List.length_pos.mpr hnonempty
            have hrne : a.rot ≠ none := by
              intro hc
              obtain ⟨hq0, _⟩ := hirotn hc
              omega
            obtain ⟨_, hang⟩ := hirots hrne
            have hangle_le : a.angle ≤ mr := hibound (by rw [hstate]; rfl) hq1
            rw [hang] at hangle_le
            have hdivle : ((q - 1 : ℕ) : ℝ) ≤ mr / δ :=
              (le_div_iff₀ hδ).mpr hangle_le
            have hfloor : (q - 1 : ℕ) ≤ ⌊mr / δ⌋₊ := Nat.le_floor hdivle
            omega
      · rw [hstate] at hns
        exact absurd hns (by simp [AdhererState.isSearching])

/-- `ConstInvC5` holds at a freshly constructed `ConstantAdherer`. -/
theorem constInvC5_new {N : ℕ} (pivot : Halfspace N) (v0 : Vec N) (δ : ℝ)
    (mrOpt : Option ℝ) :
    ConstInvC5 δ (mrOpt.getD Real.pi) (ConstAdh.new pivot v0 δ mrOpt) 0 := by
  refine ⟨rfl, rfl, rfl, fun _ => ⟨rfl, rfl⟩, fun hc => absurd rfl hc, ?_⟩
  intro _ h
  omega

/-- **C5 (amended).** The spec's bound `⌈max_rotation / delta_angle⌉` on the
classifier queries of a run ending in `FoundBoundary` is not what the code
enforces (see the counterexample theorem): the crossing check precedes the
rotation-budget check, so a find may land two queries past the budget. The
bound the code obeys is `⌊max_rotation / delta_angle⌋ + 2`. The second half
of the claim holds as stated: whenever the accumulated rotation exceeds
`max_rotation` while the state is still `Searching`, `sample_next` returns
`Err(BoundaryLost)`. -/
theorem claim_C5_const_adherer_budget {N : ℕ} {σ : Type}
    (g : σ → Vec N → Bool × σ) (pivot : Halfspace N) (v0 : Vec N) (δ : ℝ)
    (mrOpt : Option ℝ) (st0 : σ) (fuel q : ℕ) (hδ : 0 < δ)
    (hrun : RunOutcome.queriesFound (runAdh (constOps (totalCls g)) fuel
      (ConstAdh.new pivot v0 δ mrOpt) st0 0 []) = some q) :
    q ≤ ⌊mrOpt.getD Real.pi / δ⌋₊ + 2 ∧
    (∀ (a : ConstAdh N) (st : σ),
      (a.sampleNext (totalCls g) st).1.state.isSearching = true →
      (a.sampleNext (totalCls g) st).1.angle >
        (a.sampleNext (totalCls g) st).1.maxRotation →
      (a.sampleNext (totalCls g) st).2.2 = .error .boundaryLost) := by
  constructor
  · rcases hout : runAdh (constOps (totalCls g)) fuel
        (ConstAdh.new pivot v0 δ mrOpt) st0 0 [] with
      ⟨q0, hs, a1, st1, smps⟩ | ⟨q0, e, a1, st1, smps⟩ | q0 | _ <;>
      rw [hout] at hrun <;> simp [RunOutcome.queriesFound] at hrun
    subst hrun
    exact runAdh_const_found_bound g δ (mrOpt.getD Real.pi) hδ fuel _ st0 0 []
      q0 hs a1 st1 smps hout
      (Or.inl ⟨rfl, constInvC5_new pivot v0 δ mrOpt⟩)
  · intro a st hsearch hgt
    rcases hsn : a.sampleNext (totalCls g) st with ⟨a2, st2, res⟩
    rw [hsn] at hsearch hgt
    dsimp only at hsearch hgt
    obtain ⟨_, _, _, _, _, _, _, hok, herr, _⟩ :=
      constAdh_step_total g a st a2 st2 res hsn
    cases res with
    | ok s =>
      have hle := (hok s rfl).2 hsearch
      exact absurd hgt (not_lt.mpr hle)
    | error e =>
      obtain ⟨he, _, _⟩ := herr e rfl
      rw [he]

/-- Concrete two-query `FoundBoundary` run shared by the C5 counterexample
and witness: pivot `(b = 0, n = e₀)`, `v = e₁`, `delta_angle = 1`,
`max_rotation = 1`, classifier script `[true, false]` (a boundary crossing
between the first and second query). -/
theorem constAdh_two_query_found :
    RunOutcome.queriesFound (runAdh (constOps (totalCls (scriptG 2 [true, false]))) 3
      (ConstAdh.new (Halfspace.mk 0 (stdBasis 2 0)) (stdBasis 2 1) 1 (some 1)) 0 0 [])
      = some 2 := by
  norm_num [runAdh, constOps, ConstAdh.new, ConstAdh.sampleNext,
    ConstAdh.takeInitialSample, ConstAdh.takeSample, ConstAdh.afterSample,
    ConstAdh.detectCrossing, totalCls, scriptG, Sample.fromClass,
    AdhererState.isSearching, RunOutcome.queriesFound, List.getD, Option.getD]

/-- **C5 counterexample.** A `ConstantAdherer` run with `delta_angle = 1` and
`max_rotation = 1` ends in `FoundBoundary` after `2` classifier queries,
exceeding the claimed bound `⌈max_rotation / delta_angle⌉ = 1`: the crossing
check in `sample_next` precedes the rotation-budget check, so a find can land
after the budget's last allowed step. -/
theorem claim_C5_const_adherer_budget_counterexample :
    RunOutcome.queriesFound (runAdh (constOps (totalCls (scriptG 2 [true, false]))) 3
      (ConstAdh.new (Halfspace.mk 0 (stdBasis 2 0)) (stdBasis 2 1) 1 (some 1)) 0 0 [])
      = some 2 ∧
    ¬ (2 : ℕ) ≤ ⌈(1 : ℝ) / 1⌉₊ := by
  refine ⟨constAdh_two_query_found, ?_⟩
  rw [div_one, Nat.ceil_one]
  omega

/-- Closed witness for the amended C5 at the same concrete run. -/
theorem claim_C5_const_adherer_budget_witness :
    (0 : ℝ) < 1 ∧
    RunOutcome.queriesFound (runAdh (constOps (totalCls (scriptG 2 [true, false]))) 3
      (ConstAdh.new (Halfspace.mk 0 (stdBasis 2 0)) (stdBasis 2 1) 1 (some 1)) 0 0 [])
      = some 2 ∧
    2 ≤ ⌊(some (1 : ℝ)).getD Real.pi / 1⌋₊ + 2 := by
  refine ⟨by norm_num, constAdh_two_query_found, ?_⟩
  exact (claim_C5_const_adherer_budget (scriptG 2 [true, false])
    (Halfspace.mk 0 (stdBasis 2 0)) (stdBasis 2 1) 1 (some 1) 0 3 2
    (by norm_num) constAdh_two_query_found).1

/-! ### C10: `BinarySearchAdherer` `u32` underflow at `n_iter = 0` -/

/-- The classify-and-decrement phase of a `BinarySearchAdherer` step under a
never-erroring classifier and a positive `n_iter` budget: it returns `Ok`
with the decremented budget and an unchanged state. -/
theorem bsAdh_take_total {N : ℕ} {σ : Type} (g : σ → Vec N → Bool × σ)
    (a : BsAdh N) (st : σ) (h1 : 1 ≤ a.nIter) :
    ∃ a1 st1 cur,
      (match a.prevCls with
       | some pc => a.takeSample pc (totalCls g) st
       | none => a.takeInitialSample (totalCls g) st) = some (a1, st1, .ok cur) ∧
      a1.nIter = a.nIter - 1 ∧ a1.state = a.state := by
  cases hprev : a.prevCls with
  | none =>
    unfold BsAdh.takeInitialSample
    simp only [totalCls]
    rw [if_neg (show ¬ a.nIter = 0 by omega)]
    exact ⟨_, _, _, rfl, rfl, rfl⟩
  | some pc =>
    unfold BsAdh.takeSample
    simp only [totalCls]
    rw [if_neg (show ¬ a.nIter = 0 by omega)]
    exact ⟨_, _, _, rfl, rfl, rfl⟩

/-- A `BinarySearchAdherer` step with `n_iter ≥ 1` under a never-erroring
classifier never panics, and leaves `n_iter ≥ 1` whenever the adherer is
still `Searching` after an `Ok`. -/
theorem bsAdh_step_total {N : ℕ} {σ : Type} (g : σ → Vec N → Bool × σ)
    (a : BsAdh N) (st : σ) (h1 : 1 ≤ a.nIter) :
    ∃ a2 st2 res, a.sampleNext (totalCls g) st = some (a2, st2, res) ∧
      (∀ s, res = .ok s → a2.state.isSearching = true → 1 ≤ a2.nIter) := by
  obtain ⟨a1, st1, cur, hT, hn, hstate⟩ := bsAdh_take_total g a st h1
  unfold BsAdh.sampleNext
  rw [hT]
  dsimp only
  split_ifs with h0
  · rcases h2 : a1.t with _ | tv <;> rcases h3 : a1.x with _ | xv <;>
      simp only [h2, h3]
    · exact ⟨_, _, _, rfl, fun s hres => by simp at hres⟩
    · exact ⟨_, _, _, rfl, fun s hres => by simp at hres⟩
    · exact ⟨_, _, _, rfl, fun s hres => by simp at hres⟩
    · refine ⟨_, _, _, rfl, ?_⟩
      intro s _ hsearch
      simp [AdhererState.isSearching] at hsearch
  · refine ⟨_, _, _, rfl, ?_⟩
    intro s _ _
    simp only []
    omega

/-- Driving a `BinarySearchAdherer` whose `n_iter` budget is still positive
while it is `Searching` never panics. -/
theorem runAdh_bs_no_panic {N : ℕ} {σ : Type} (g : σ → Vec N → Bool × σ) :
    ∀ (fuel : ℕ) (a : BsAdh N) (st : σ) (q : ℕ) (acc : List (Sample N)),
      (a.state.isSearching = true → 1 ≤ a.nIter) →
      ∀ q', runAdh (bsOps (totalCls g)) fuel a st q acc ≠ .panicked q' := by
  intro fuel
  induction fuel with
  | zero =>
    intro a st q acc _ q'
    simp [runAdh]
  | succ n ih =>
    intro a st q acc hinv q'
    rw [runAdh]
    cases hstate : a.state with
    | foundBoundary hsf =>
      simp [bsOps, hstate]
    | searching =>
      have h1 : 1 ≤ a.nIter := hinv (by rw [hstate]; rfl)
      obtain ⟨a2, st2, res, hsn, hnext⟩ := bsAdh_step_total g a st h1
      simp only [bsOps, hstate, hsn]
      cases res with
      | error e => simp
      | ok s =>
        have hrec := ih a2 st2 (q + 1) (acc ++ [s]) (hnext s rfl) q'
        simpa using hrec

/-- **C10.** A `BinarySearchAdherer` constructed with `n_iter = 0` panics
with a `u32` underflow on the first `sample_next` call (it returns neither a
`Sample` nor a `SamplingError`); for `n_iter ≥ 1` the counter never
underflows during a driven run. -/
theorem claim_C10_bs_adherer_underflow {N : ℕ} {σ : Type}
    (g : σ → Vec N → Bool × σ) (pivot : Halfspace N) (v : Vec N)
    (initAngle : ℝ) (st : σ) :
    (BsAdh.new pivot v initAngle 0).sampleNext (totalCls g) st = none ∧
    (∀ m, 1 ≤ m → ∀ (fuel q : ℕ),
      runAdh (bsOps (totalCls g)) fuel (BsAdh.new pivot v initAngle m) st 0 []
        ≠ .panicked q) := by
  constructor
  · simp [BsAdh.sampleNext, BsAdh.takeInitialSample, BsAdh.new, totalCls]
  · intro m hm fuel q
    exact runAdh_bs_no_panic g fuel (BsAdh.new pivot v initAngle m) st 0 []
      (fun _ => hm) q

/-- Closed witness for C10 at a concrete dimension-2 instance. -/
theorem claim_C10_bs_adherer_underflow_witness :
    (BsAdh.new (Halfspace.mk 0 (stdBasis 2 0)) (stdBasis 2 1) 1 0).sampleNext
      (totalCls (scriptG 2 [true])) 0 = none ∧
    (1:ℕ) ≤ 1 ∧
    runAdh (bsOps (totalCls (scriptG 2 [true]))) 3
      (BsAdh.new (Halfspace.mk 0 (stdBasis 2 0)) (stdBasis 2 1) 1 1) 0 0 []
      ≠ .panicked 0 := by
  have h := claim_C10_bs_adherer_underflow (scriptG 2 [true])
    (Halfspace.mk 0 (stdBasis 2 0)) (stdBasis 2 1) 1 (0 : ℕ)
  exact ⟨h.1, by omega, h.2 1 (by omega) 3 0⟩

/-! ### C6: geometric invariants of the adherers -/

theorem getLast?_mem_list {α : Type _} {l : List α} {a : α}
    (h : l.getLast? = some a) : a ∈ l := by
  obtain ⟨hne, heq⟩ := List.mem_getLast?_eq_getLast (Option.mem_def.mpr h)
  rw [heq]
  exact List.getLast_mem hne

theorem Sample.point_fromClass {N : ℕ} (p : Vec N) (c : Bool) :
    (Sample.fromClass p c).point = p := by
  cases c <;> rfl

theorem normalizeV_of_normV_one {N : ℕ} {v : Vec N} (h : normV v = 1) :
    normalizeV v = v := by
  funext i
  simp [normalizeV, h]

/-- The rotater keeps a span-plane vector in the plane with the same squared
norm. -/
theorem inSpanNorm_rot {N : ℕ} {sp : SpanT N} (ho : IsOrthonormalPair sp.u sp.v)
    {c : ℝ} {w : Vec N} (hw : InSpanNorm sp c w) (θ : ℝ) :
    InSpanNorm sp c (mulVecM (sp.getRotater θ) w) := by
  obtain ⟨α, β, hweq, hc⟩ := hw
  refine ⟨α * Real.cos θ + β * Real.sin θ, β * Real.cos θ - α * Real.sin θ,
    ?_, ?_⟩
  · rw [hweq, rotater_apply_span sp ho]
  · have hpyth := Real.sin_sq_add_cos_sq θ
    have hsq : (α * Real.cos θ + β * Real.sin θ) * (α * Real.cos θ + β * Real.sin θ)
        + (β * Real.cos θ - α * Real.sin θ) * (β * Real.cos θ - α * Real.sin θ)
        = (α * α + β * β) * (Real.sin θ ^ 2 + Real.cos θ ^ 2) := by ring
    rw [hsq, hpyth, mul_one, hc]

theorem inSpanNorm_dot {N : ℕ} {sp : SpanT N} (ho : IsOrthonormalPair sp.u sp.v)
    {c : ℝ} {w : Vec N} (hw : InSpanNorm sp c w) : dotV w w = c := by
  obtain ⟨α, β, hweq, hc⟩ := hw
  rw [hweq, dotV_combo ho, hc]

theorem inSpanNorm_normV {N : ℕ} {sp : SpanT N}
    (ho : IsOrthonormalPair sp.u sp.v) {v0 w : Vec N}
    (hw : InSpanNorm sp (dotV v0 v0) w) : normV w = normV v0 := by
  unfold normV
  rw [inSpanNorm_dot ho hw]

theorem inSpanNorm_ne_zero {N : ℕ} {sp : SpanT N}
    (ho : IsOrthonormalPair sp.u sp.v) {v0 w : Vec N} (hv : v0 ≠ 0)
    (hw : InSpanNorm sp (dotV v0 v0) w) : w ≠ 0 := by
  intro hzero
  have hd := inSpanNorm_dot ho hw
  rw [hzero] at hd
  have : dotV (0 : Vec N) (0 : Vec N) = 0 := (dotV_self_eq_zero 0).mpr rfl
  rw [this] at hd
  exact hv ((dotV_self_eq_zero v0).mp hd.symm)

/-- When the span inputs are orthogonal nonzero vectors, the Gram-Schmidt
residual of `Span::new(n, v0)` is `normalize(v0)`, and the span's second
vector is `normalize(v0)` exactly. -/
theorem spanNew_orth_data {N : ℕ} {n v0 : Vec N} (hn : n ≠ 0) (hv : v0 ≠ 0)
    (horth : dotV n v0 = 0) :
    gsResidual n v0 = normalizeV v0 ∧ gsResidual n v0 ≠ 0 ∧
      (SpanT.new n v0).v = normalizeV v0 := by
  have hd : dotV (normalizeV n) (normalizeV v0) = 0 := by
    rw [normalizeV_eq_smul, normalizeV_eq_smul, dotV_smul_left, dotV_smul_right,
      horth]
    ring
  have hres : gsResidual n v0 = normalizeV v0 := by
    unfold gsResidual
    rw [hd]
    funext i
    simp
  have hnz : gsResidual n v0 ≠ 0 := by
    rw [hres]
    intro hzero
    have h1 := normV_normalizeV hv
    rw [hzero, normV_zero_vec] at h1
    norm_num at h1
  refine ⟨hres, hnz, ?_⟩
  have hv1 : (SpanT.new n v0).v = normalizeV (gsResidual n v0) := rfl
  rw [hv1, hres]
  exact normalizeV_of_normV_one (normV_normalizeV hv)

/-- The initial displacement lies in the plane of its own span with its own
squared norm. -/
theorem v0_inSpanNorm {N : ℕ} {n v0 : Vec N} (hn : n ≠ 0) (hv : v0 ≠ 0)
    (horth : dotV n v0 = 0) :
    InSpanNorm (SpanT.new n v0) (dotV v0 v0) v0 := by
  obtain ⟨_, _, hspv⟩ := spanNew_orth_data hn hv horth
  refine ⟨0, normV v0, ?_, ?_⟩
  · rw [hspv, zero_smul, zero_add]
    exact (normalizeV_smul_norm hv).symm
  · rw [show (0:ℝ) * 0 + normV v0 * normV v0 = normV v0 ^ 2 by ring, normV_sq]

/-- Orthonormality of the span of an adherer with an in-surface displacement. -/
theorem spanNew_orthonormal_of_orth {N : ℕ} {n v0 : Vec N} (hn : n ≠ 0)
    (hv : v0 ≠ 0) (horth : dotV n v0 = 0) :
    IsOrthonormalPair (SpanT.new n v0).u (SpanT.new n v0).v := by
  obtain ⟨_, hnz, _⟩ := spanNew_orth_data hn hv horth
  exact spanNew_orthonormal hn hnz

/-- Where the `FoundBoundary` halfspace of `detect_crossing` comes from: the
crossing's `WithinMode` point is the new sample's point or a previous
sample's point. -/
theorem detectCrossing_state_found {N : ℕ} (a1 : ConstAdh N) (cur : Sample N)
    (hs : Halfspace N)
    (hfound : (a1.detectCrossing cur).state = AdhererState.foundBoundary hs) :
    a1.state = AdhererState.foundBoundary hs ∨
    ∃ t, hs = Halfspace.mk t (normalizeV (mulVecM (a1.span.getRotater
        (Real.pi / 2)) (t - a1.pivot.b))) ∧
      (t = cur.point ∨ ∃ smp ∈ a1.samples, t = smp.point) := by
  rcases hlast : a1.samples.getLast? with _ | prev
  · left
    unfold ConstAdh.detectCrossing at hfound
    rw [hlast] at hfound
    cases cur <;> exact hfound
  · cases prev with
    | withinMode t =>
      cases cur with
      | withinMode p =>
        unfold ConstAdh.detectCrossing at hfound
        rw [hlast] at hfound
        exact Or.inl hfound
      | outOfMode p =>
        unfold ConstAdh.detectCrossing at hfound
        rw [hlast] at hfound
        dsimp only at hfound
        right
        refine ⟨t, ?_, Or.inr ⟨Sample.withinMode t, getLast?_mem_list hlast, rfl⟩⟩
        injection hfound with h
        exact h.symm
    | outOfMode t =>
      cases cur with
      | withinMode p =>
        unfold ConstAdh.detectCrossing at hfound
        rw [hlast] at hfound
        dsimp only at hfound
        right
        refine ⟨p, ?_, Or.inl rfl⟩
        injection hfound with h
        exact h.symm
      | outOfMode p =>
        unfold ConstAdh.detectCrossing at hfound
        rw [hlast] at hfound
        exact Or.inl hfound

/-- `detect_crossing` preserves the geometric run invariant, given that the
new sample's point is a span-plane offset from the pivot. -/
theorem detectCrossing_spanInv {N : ℕ} {pivot : Halfspace N} {v0 : Vec N}
    (a1 : ConstAdh N) (cur : Sample N)
    (hinv : ConstSpanInv pivot v0 a1)
    (hcur : ∃ w, InSpanNorm (SpanT.new pivot.n v0) (dotV v0 v0) w ∧
      cur.point = pivot.b + w) :
    ConstSpanInv pivot v0 (a1.detectCrossing cur) := by
  obtain ⟨hpiv, hspan, hrot, hv, hsamp, hfound⟩ := hinv
  rcases detectCrossing_eq_or a1 cur with hd | ⟨hsf, hd⟩
  · rw [hd]; exact ⟨hpiv, hspan, hrot, hv, hsamp, hfound⟩
  · rw [hd]
    refine ⟨hpiv, hspan, hrot, hv, hsamp, ?_⟩
    intro hs hstate
    have hstate2 : AdhererState.foundBoundary hsf = AdhererState.foundBoundary hs :=
      hstate
    have hsf_eq : hsf = hs := by injection hstate2
    have h2 : (a1.detectCrossing cur).state = AdhererState.foundBoundary hs := by
      rw [hd]
      show AdhererState.foundBoundary hsf = AdhererState.foundBoundary hs
      rw [hsf_eq]
    rcases detectCrossing_state_found a1 cur hs h2 with hold | ⟨t, hhs, hts⟩
    · exact hfound hs hold
    · have hb : ∃ w, InSpanNorm (SpanT.new pivot.n v0) (dotV v0 v0) w ∧
          t = pivot.b + w := by
        rcases hts with h | ⟨smp, hmem, hpt⟩
        · obtain ⟨w, hw, hp⟩ := hcur
          exact ⟨w, hw, by rw [h, hp]⟩
        · obtain ⟨w, hw, hp⟩ := hsamp smp hmem
          exact ⟨w, hw, by rw [hpt, hp]⟩
      obtain ⟨w, hw, htw⟩ := hb
      refine ⟨w, hw, ?_, ?_⟩
      · rw [hhs]
        exact htw
      · rw [hhs]
        show normalizeV (mulVecM (a1.span.getRotater (Real.pi / 2))
          (t - a1.pivot.b)) = _
        rw [hspan, hpiv, htw, add_sub_cancel_left]

/-- `afterSample` preserves the geometric run invariant. -/
theorem constAdh_afterSample_spanInv {N : ℕ} {σ : Type} {pivot : Halfspace N}
    {v0 : Vec N} (a1 : ConstAdh N) (cur : Sample N) (st1 : σ)
    (a2 : ConstAdh N) (st2 : σ) (res : Except SamplingError (Sample N))
    (h : a1.afterSample cur st1 = (a2, st2, res))
    (hinv : ConstSpanInv pivot v0 a1)
    (hcur : ∃ w, InSpanNorm (SpanT.new pivot.n v0) (dotV v0 v0) w ∧
      cur.point = pivot.b + w) :
    ConstSpanInv pivot v0 a2 := by
  have hdc := detectCrossing_spanInv a1 cur hinv hcur
  unfold ConstAdh.afterSample at h
  dsimp only [] at h
  split_ifs at h with hif <;> simp only [Prod.mk.injEq] at h <;>
    obtain ⟨rfl, rfl, rfl⟩ := h
  · exact hdc
  · obtain ⟨hpiv, hspan, hrot, hv, hsamp, hfound⟩ := hdc
    refine ⟨hpiv, hspan, hrot, hv, ?_, hfound⟩
    intro smp hmem
    rcases List.mem_append.mp hmem with hmem1 | hmem2
    · exact hsamp smp hmem1
    · have hsmp : smp = cur := by simpa using hmem2
      subst hsmp
      exact hcur

/-- One `ConstantAdherer` step preserves the geometric run invariant. -/
theorem constAdh_step_spanInv {N : ℕ} {σ : Type} (g : σ → Vec N → Bool × σ)
    {pivot : Halfspace N} {v0 : Vec N}
    (ho : IsOrthonormalPair (SpanT.new pivot.n v0).u (SpanT.new pivot.n v0).v)
    (a : ConstAdh N) (st : σ) (a2 : ConstAdh N) (st2 : σ)
    (res : Except SamplingError (Sample N))
    (hstep : a.sampleNext (totalCls g) st = (a2, st2, res))
    (hinv : ConstSpanInv pivot v0 a) : ConstSpanInv pivot v0 a2 := by
  obtain ⟨hpiv, hspan, hrot, hv, hsamp, hfound⟩ := hinv
  unfold ConstAdh.sampleNext at hstep
  cases hrota : a.rot with
  | none =>
    rw [hrota] at hstep
    unfold ConstAdh.takeInitialSample at hstep
    simp only [totalCls] at hstep
    refine constAdh_afterSample_spanInv _ _ _ _ _ _ hstep ⟨hpiv, hspan, ?_, hv,
      hsamp, hfound⟩ ?_
    · intro R hR
      have hR2 : some (a.span.getRotater
          (if (g st (a.pivot.b + a.v)).1 then a.deltaAngle else -a.deltaAngle))
          = some R := hR
      injection hR2 with hR3
      exact ⟨_, by rw [← hR3, hspan]⟩
    · exact ⟨a.v, hv, by rw [Sample.point_fromClass, hpiv]⟩
  | some rotm =>
    rw [hrota] at hstep
    unfold ConstAdh.takeSample at hstep
    simp only [totalCls] at hstep
    obtain ⟨θR, hθR⟩ := hrot rotm hrota
    have hv2 : InSpanNorm (SpanT.new pivot.n v0) (dotV v0 v0)
        (mulVecM rotm a.v) := by
      rw [hθR]
      exact inSpanNorm_rot ho hv θR
    refine constAdh_afterSample_spanInv _ _ _ _ _ _ hstep
      ⟨hpiv, hspan, ?_, hv2, hsamp, hfound⟩ ?_
    · intro R hR
      exact hrot R hR
    · exact ⟨mulVecM rotm a.v, hv2, by rw [Sample.point_fromClass, hpiv]⟩

/-- Driving a `ConstantAdherer` to `FoundBoundary` from a state satisfying
the geometric run invariant yields a boundary point at a span-plane offset of
squared norm `‖v0‖²` from the pivot, with the `π/2`-rotated normal. -/
theorem runAdh_const_found_span {N : ℕ} {σ : Type} (g : σ → Vec N → Bool × σ)
    {pivot : Halfspace N} {v0 : Vec N}
    (ho : IsOrthonormalPair (SpanT.new pivot.n v0).u (SpanT.new pivot.n v0).v) :
    ∀ (fuel : ℕ) (a : ConstAdh N) (st : σ) (q : ℕ) (acc : List (Sample N))
      (q' : ℕ) (hs : Halfspace N) (a1 : ConstAdh N) (st1 : σ)
      (smps : List (Sample N)),
      runAdh (constOps (totalCls g)) fuel a st q acc = .found q' hs a1 st1 smps →
      ConstSpanInv pivot v0 a →
      ∃ w, InSpanNorm (SpanT.new pivot.n v0) (dotV v0 v0) w ∧
        hs.b = pivot.b + w ∧
        hs.n = normalizeV (mulVecM ((SpanT.new pivot.n v0).getRotater
          (Real.pi / 2)) w) := by
  intro fuel
  induction fuel with
  | zero =>
    intro a st q acc q' hs a1 st1 smps hrun _
    simp [runAdh] at hrun
  | succ n ih =>
    intro a st q acc q' hs a1 st1 smps hrun hinv
    rw [runAdh] at hrun
    cases hstate : a.state with
    | foundBoundary hsf =>
      simp only [constOps, hstate] at hrun
      injection hrun with h1 h2 h3 h4 h5
      exact hinv.2.2.2.2.2 hs (h2 ▸ hstate)
    | searching =>
      rcases hsn : a.sampleNext (totalCls g) st with ⟨a2, st2, res⟩
      simp only [constOps, hstate, hsn] at hrun
      cases res with
      | error e => simp at hrun
      | ok s =>
        have hrun2 : runAdh (constOps (totalCls g)) n a2 st2 (q + 1)
            (acc ++ [s]) = .found q' hs a1 st1 smps := by
          simpa using hrun
        exact ih a2 st2 (q + 1) (acc ++ [s]) q' hs a1 st1 smps hrun2
          (constAdh_step_spanInv g ho a st a2 st2 (.ok s) hsn hinv)

/-- The geometric run invariant holds at `ConstantAdherer::new`. -/
theorem constSpanInv_new {N : ℕ} {pivot : Halfspace N} {v0 : Vec N}
    (hn : pivot.n ≠ 0) (hv : v0 ≠ 0) (horth : dotV pivot.n v0 = 0)
    (δ : ℝ) (mrOpt : Option ℝ) :
    ConstSpanInv pivot v0 (ConstAdh.new pivot v0 δ mrOpt) := by
  refine ⟨rfl, rfl, ?_, v0_inSpanNorm hn hv horth, ?_, ?_⟩
  · intro R hR
    exact absurd hR (by simp [ConstAdh.new])
  · intro smp hmem
    simp [ConstAdh.new] at hmem
  · intro hs hstate
    exact absurd hstate (by simp [ConstAdh.new])

/-- The classify-and-decrement phase of a `BinarySearchAdherer` step
preserves the geometric run invariant and the state. -/
theorem bsAdh_take_spanInv {N : ℕ} {σ : Type} (g : σ → Vec N → Bool × σ)
    {pivot : Halfspace N} {v0 : Vec N}
    (ho : IsOrthonormalPair (SpanT.new pivot.n v0).u (SpanT.new pivot.n v0).v)
    (a : BsAdh N) (st : σ) (a1 : BsAdh N) (st1 : σ)
    (res1 : Except SamplingError (Sample N))
    (htake : (match a.prevCls with
      | some pc => a.takeSample pc (totalCls g) st
      | none => a.takeInitialSample (totalCls g) st) = some (a1, st1, res1))
    (hinv : BsSpanInv pivot v0 a) :
    BsSpanInv pivot v0 a1 ∧ a1.state = a.state := by
  obtain ⟨hpiv, hspan, hv, ht, hfound⟩ := hinv
  cases hprev : a.prevCls with
  | none =>
    rw [hprev] at htake
    unfold BsAdh.takeInitialSample at htake
    simp only [totalCls] at htake
    by_cases hc : (g st (a.pivot.b + a.v)).1 = true
    · rw [if_pos hc, if_pos hc] at htake
      split_ifs at htake with h0
      simp only [Option.some.injEq, Prod.mk.injEq] at htake
      obtain ⟨rfl, rfl, rfl⟩ := htake
      refine ⟨⟨hpiv, hspan, hv, ?_, hfound⟩, rfl⟩
      intro tv htv
      have htv2 : some (a.pivot.b + a.v) = some tv := htv
      injection htv2 with hteq
      exact ⟨a.v, hv, by rw [← hteq, hpiv]⟩
    · rw [if_neg hc, if_neg hc] at htake
      split_ifs at htake with h0
      simp only [Option.some.injEq, Prod.mk.injEq] at htake
      obtain ⟨rfl, rfl, rfl⟩ := htake
      exact ⟨⟨hpiv, hspan, hv, ht, hfound⟩, rfl⟩
  | some pc =>
    rw [hprev] at htake
    unfold BsAdh.takeSample at htake
    simp only [totalCls] at htake
    generalize hθ : (if pc = true then (1 : ℝ) else -1) * a.angle = θ at htake
    have hv2 : InSpanNorm (SpanT.new pivot.n v0) (dotV v0 v0)
        (mulVecM (a.rotSpan.getRotater θ) a.v) := by
      rw [hspan]
      exact inSpanNorm_rot ho hv θ
    by_cases hc : (g st (a.pivot.b +
        mulVecM (a.rotSpan.getRotater θ) a.v)).1 = true
    · rw [if_pos hc, if_pos hc] at htake
      split_ifs at htake with h0
      simp only [Option.some.injEq, Prod.mk.injEq] at htake
      obtain ⟨rfl, rfl, rfl⟩ := htake
      refine ⟨⟨hpiv, hspan, hv2, ?_, hfound⟩, rfl⟩
      intro tv htv
      have htv2 : some (a.pivot.b + mulVecM (a.rotSpan.getRotater θ) a.v)
          = some tv := htv
      injection htv2 with hteq
      exact ⟨_, hv2, by rw [← hteq, hpiv]⟩
    · rw [if_neg hc, if_neg hc] at htake
      split_ifs at htake with h0
      simp only [Option.some.injEq, Prod.mk.injEq] at htake
      obtain ⟨rfl, rfl, rfl⟩ := htake
      exact ⟨⟨hpiv, hspan, hv2, ht, hfound⟩, rfl⟩

/-- One `BinarySearchAdherer` step preserves the geometric run invariant. -/
theorem bsAdh_step_spanInv {N : ℕ} {σ : Type} (g : σ → Vec N → Bool × σ)
    {pivot : Halfspace N} {v0 : Vec N}
    (ho : IsOrthonormalPair (SpanT.new pivot.n v0).u (SpanT.new pivot.n v0).v)
    (a : BsAdh N) (st : σ) (a2 : BsAdh N) (st2 : σ)
    (res : Except SamplingError (Sample N))
    (hstep : a.sampleNext (totalCls g) st = some (a2, st2, res))
    (hinv : BsSpanInv pivot v0 a) : BsSpanInv pivot v0 a2 := by
  unfold BsAdh.sampleNext at hstep
  rcases htake : (match a.prevCls with
      | some pc => a.takeSample pc (totalCls g) st
      | none => a.takeInitialSample (totalCls g) st) with _ | ⟨a1, st1, res1⟩
  · rw [htake] at hstep
    exact absurd hstep (by simp)
  · rw [htake] at hstep
    obtain ⟨hinv1, hstate1⟩ := bsAdh_take_spanInv g ho a st a1 st1 res1 htake hinv
    obtain ⟨hpiv1, hspan1, hv1, ht1, hfound1⟩ := hinv1
    cases res1 with
    | error e =>
      dsimp only [] at hstep
      simp only [Option.some.injEq, Prod.mk.injEq] at hstep
      obtain ⟨rfl, rfl, rfl⟩ := hstep
      exact ⟨hpiv1, hspan1, hv1, ht1, hfound1⟩
    | ok cur =>
      dsimp only [] at hstep
      split_ifs at hstep with h0
      · rcases h2 : a1.t with _ | tv <;> rcases h3 : a1.x with _ | xv <;>
          rw [h2, h3] at hstep <;> dsimp only [] at hstep <;>
          simp only [Option.some.injEq, Prod.mk.injEq] at hstep <;>
          obtain ⟨rfl, rfl, rfl⟩ := hstep
        · exact ⟨hpiv1, hspan1, hv1, ht1, hfound1⟩
        · exact ⟨hpiv1, hspan1, hv1, ht1, hfound1⟩
        · exact ⟨hpiv1, hspan1, hv1, ht1, hfound1⟩
        · refine ⟨hpiv1, hspan1, hv1, ?_, ?_⟩
          · intro tv1 htv
            have htv2 : some tv = some tv1 := htv
            injection htv2 with hteq
            obtain ⟨w, hw, htw⟩ := ht1 tv h2
            exact ⟨w, hw, by rw [← hteq]; exact htw⟩
          · intro hs hstate
            obtain ⟨w, hw, htw⟩ := ht1 tv h2
            have hstate2 : AdhererState.foundBoundary (Halfspace.mk tv
                (normalizeV (mulVecM (a1.rotSpan.getRotater (Real.pi / 2))
                  (tv - a1.pivot.b)))) = AdhererState.foundBoundary hs := hstate
            have hseq : Halfspace.mk tv (normalizeV (mulVecM
                (a1.rotSpan.getRotater (Real.pi / 2)) (tv - a1.pivot.b))) = hs := by
              injection hstate2
            refine ⟨w, hw, ?_, ?_⟩
            · rw [← hseq]
              exact htw
            · rw [← hseq]
              show normalizeV (mulVecM (a1.rotSpan.getRotater (Real.pi / 2))
                (tv - a1.pivot.b)) = _
              rw [hspan1, hpiv1, htw, add_sub_cancel_left]
      · simp only [Option.some.injEq, Prod.mk.injEq] at hstep
        obtain ⟨rfl, rfl, rfl⟩ := hstep
        exact ⟨hpiv1, hspan1, hv1, ht1, hfound1⟩

/-- Driving a `BinarySearchAdherer` to `FoundBoundary` from a state
satisfying the geometric run invariant yields a boundary point at a
span-plane offset of squared norm `‖v0‖²` from the pivot, with the
`π/2`-rotated normal. -/
theorem runAdh_bs_found_span {N : ℕ} {σ : Type} (g : σ → Vec N → Bool × σ)
    {pivot : Halfspace N} {v0 : Vec N}
    (ho : IsOrthonormalPair (SpanT.new pivot.n v0).u (SpanT.new pivot.n v0).v) :
    ∀ (fuel : ℕ) (a : BsAdh N) (st : σ) (q : ℕ) (acc : List (Sample N))
      (q' : ℕ) (hs : Halfspace N) (a1 : BsAdh N) (st1 : σ)
      (smps : List (Sample N)),
      runAdh (bsOps (totalCls g)) fuel a st q acc = .found q' hs a1 st1 smps →
      BsSpanInv pivot v0 a →
      ∃ w, InSpanNorm (SpanT.new pivot.n v0) (dotV v0 v0) w ∧
        hs.b = pivot.b + w ∧
        hs.n = normalizeV (mulVecM ((SpanT.new pivot.n v0).getRotater
          (Real.pi / 2)) w) := by
  intro fuel
  induction fuel with
  | zero =>
    intro a st q acc q' hs a1 st1 smps hrun _
    simp [runAdh] at hrun
  | succ n ih =>
    intro a st q acc q' hs a1 st1 smps hrun hinv
    rw [runAdh] at hrun
    cases hstate : a.state with
    | foundBoundary hsf =>
      simp only [bsOps, hstate] at hrun
      injection hrun with h1 h2 h3 h4 h5
      exact hinv.2.2.2.2 hs (h2 ▸ hstate)
    | searching =>
      rcases hsn : a.sampleNext (totalCls g) st with _ | ⟨a2, st2, res⟩
      · simp [bsOps, hstate, hsn] at hrun
      · simp only [bsOps, hstate, hsn] at hrun
        cases res with
        | error e => simp at hrun
        | ok s =>
          have hrun2 : runAdh (bsOps (totalCls g)) n a2 st2 (q + 1)
              (acc ++ [s]) = .found q' hs a1 st1 smps := by
            simpa using hrun
          exact ih a2 st2 (q + 1) (acc ++ [s]) q' hs a1 st1 smps hrun2
            (bsAdh_step_spanInv g ho a st a2 st2 (.ok s) hsn hinv)

/-- The geometric run invariant holds at `BinarySearchAdherer::new`. -/
theorem bsSpanInv_new {N : ℕ} {pivot : Halfspace N} {v0 : Vec N}
    (hn : pivot.n ≠ 0) (hv : v0 ≠ 0) (horth : dotV pivot.n v0 = 0)
    (initAngle : ℝ) (nIter : ℕ) :
    BsSpanInv pivot v0 (BsAdh.new pivot v0 initAngle nIter) := by
  refine ⟨rfl, rfl, v0_inSpanNorm hn hv horth, ?_, ?_⟩
  · intro tv htv
    exact absurd htv (by simp [BsAdh.new])
  · intro hs hstate
    exact absurd hstate (by simp [BsAdh.new])

theorem stdBasis_ne_zero {N : ℕ} (j : Fin N) : stdBasis N j ≠ 0 := by
  intro h
  have h0 := congrFun h j
  simp [stdBasis] at h0

theorem dotV_stdBasis_self {N : ℕ} (j : Fin N) :
    dotV (stdBasis N j) (stdBasis N j) = 1 := by
  unfold dotV stdBasis
  rw [Finset.sum_eq_single j (fun i _ hij => by simp [hij])
    (fun hj => absurd (Finset.mem_univ j) hj)]
  simp

theorem normV_stdBasis {N : ℕ} (j : Fin N) : normV (stdBasis N j) = 1 := by
  unfold normV
  rw [dotV_stdBasis_self, Real.sqrt_one]

/-- **C6.** For a child halfspace produced by a `ConstantAdherer` or a
`BinarySearchAdherer` started from the parent halfspace `pivot` with an
in-surface displacement `v0` (`v0` orthogonal to the parent normal, as the
cardinal displacements `d·v` of `MeshExplorer` are) and `margin ≤ ‖v0‖`
(the explorer's `0 < margin < d = ‖v0‖`): every run of either adherer under
a never-erroring classifier that ends in `FoundBoundary` yields a boundary
point with `‖child.b − parent.b‖ = ‖v0‖`, hence at least `margin` — each
rotation is an isometry of the span plane, so every candidate stays at
distance exactly `‖v0‖` from the pivot. -/
theorem claim_C6_parent_child_margin {N : ℕ} {σ : Type}
    (g : σ → Vec N → Bool × σ) (pivot : Halfspace N) (v0 : Vec N)
    (margin : ℝ) (st0 : σ) (hn : pivot.n ≠ 0) (hv : v0 ≠ 0)
    (horth : dotV pivot.n v0 = 0) (hm : margin ≤ normV v0) :
    (∀ (δ : ℝ) (mrOpt : Option ℝ) (fuel : ℕ) (hs : Halfspace N),
      (runAdh (constOps (totalCls g)) fuel (ConstAdh.new pivot v0 δ mrOpt)
        st0 0 []).foundHalfspace = some hs →
      normV (hs.b - pivot.b) = normV v0 ∧ margin ≤ normV (hs.b - pivot.b)) ∧
    (∀ (initAngle : ℝ) (nIter : ℕ) (fuel : ℕ) (hs : Halfspace N),
      (runAdh (bsOps (totalCls g)) fuel (BsAdh.new pivot v0 initAngle nIter)
        st0 0 []).foundHalfspace = some hs →
      normV (hs.b - pivot.b) = normV v0 ∧ margin ≤ normV (hs.b - pivot.b)) := by
  have ho := spanNew_orthonormal_of_orth hn hv horth
  constructor
  · intro δ mrOpt fuel hs hfound
    rcases hrun : runAdh (constOps (totalCls g)) fuel
        (ConstAdh.new pivot v0 δ mrOpt) st0 0 [] with
      ⟨q', hs', a1, st1, smps⟩ | ⟨q', e, a1, st1, smps⟩ | q' | _
    · rw [hrun] at hfound
      have h2 : some hs' = some hs := hfound
      have hs_eq : hs' = hs := by injection h2
      obtain ⟨w, hw, hb, hnorm⟩ := runAdh_const_found_span g ho fuel
        (ConstAdh.new pivot v0 δ mrOpt) st0 0 [] q' hs' a1 st1 smps hrun
        (constSpanInv_new hn hv horth δ mrOpt)
      have hbw : hs.b - pivot.b = w := by
        rw [← hs_eq, hb, add_sub_cancel_left]
      have hwv : normV w = normV v0 := inSpanNorm_normV ho hw
      rw [hbw, hwv]
      exact ⟨rfl, hm⟩
    · rw [hrun] at hfound
      exact absurd hfound (by simp [RunOutcome.foundHalfspace])
    · rw [hrun] at hfound
      exact absurd hfound (by simp [RunOutcome.foundHalfspace])
    · rw [hrun] at hfound
      exact absurd hfound (by simp [RunOutcome.foundHalfspace])
  · intro initAngle nIter fuel hs hfound
    rcases hrun : runAdh (bsOps (totalCls g)) fuel
        (BsAdh.new pivot v0 initAngle nIter) st0 0 [] with
      ⟨q', hs', a1, st1, smps⟩ | ⟨q', e, a1, st1, smps⟩ | q' | _
    · rw [hrun] at hfound
      have h2 : some hs' = some hs := hfound
      have hs_eq : hs' = hs := by injection h2
      obtain ⟨w, hw, hb, hnorm⟩ := runAdh_bs_found_span g ho fuel
        (BsAdh.new pivot v0 initAngle nIter) st0 0 [] q' hs' a1 st1 smps hrun
        (bsSpanInv_new hn hv horth initAngle nIter)
      have hbw : hs.b - pivot.b = w := by
        rw [← hs_eq, hb, add_sub_cancel_left]
      have hwv : normV w = normV v0 := inSpanNorm_normV ho hw
      rw [hbw, hwv]
      exact ⟨rfl, hm⟩
    · rw [hrun] at hfound
      exact absurd hfound (by simp [RunOutcome.foundHalfspace])
    · rw [hrun] at hfound
      exact absurd hfound (by simp [RunOutcome.foundHalfspace])
    · rw [hrun] at hfound
      exact absurd hfound (by simp [RunOutcome.foundHalfspace])

/-- **C6 witness.** The scripted 2-query `ConstantAdherer` run from the
parent `pivotC6` with displacement `e₁` ends in `FoundBoundary` at `hsC6`,
and the claim instantiated there gives `‖hsC6.b − pivotC6.b‖ = ‖e₁‖ = 1 ≥
1/2 = margin`. -/
theorem claim_C6_parent_child_margin_witness :
    (runAdh (constOps (totalCls (scriptG 2 [true, false]))) 3
        (ConstAdh.new pivotC6 (stdBasis 2 1) 1 (some 1)) 0 0 []).foundHalfspace
      = some hsC6 ∧
    normV (hsC6.b - pivotC6.b) = normV (stdBasis 2 1) ∧
    (1 / 2 : ℝ) ≤ normV (hsC6.b - pivotC6.b) := by
  have heval : (runAdh (constOps (totalCls (scriptG 2 [true, false]))) 3
      (ConstAdh.new pivotC6 (stdBasis 2 1) 1 (some 1)) 0 0 []).foundHalfspace
      = some hsC6 := by
    norm_num [runAdh, constOps, ConstAdh.new, ConstAdh.sampleNext,
      ConstAdh.takeInitialSample, ConstAdh.takeSample, ConstAdh.afterSample,
      ConstAdh.detectCrossing, totalCls, scriptG, Sample.fromClass,
      AdhererState.isSearching, RunOutcome.foundHalfspace, List.getD,
      Option.getD, pivotC6, hsC6]
  have happ := (claim_C6_parent_child_margin (scriptG 2 [true, false]) pivotC6
    (stdBasis 2 1) (1 / 2) 0
    (by rw [show pivotC6.n = stdBasis 2 0 from rfl]; exact stdBasis_ne_zero 0)
    (stdBasis_ne_zero 1)
    (by rw [show pivotC6.n = stdBasis 2 0 from rfl]
        norm_num [dotV, stdBasis, Fin.sum_univ_two])
    (by rw [normV_stdBasis]; norm_num)).1 1 (some 1) 3 hsC6 heval
  exact ⟨heval, happ⟩

/-- The `binary_surface_search` loop under a pure classifier keeps `p_t`
classified `WithinMode` and `p_x` classified `OutOfMode`. -/
theorem bssLoop_pure_inv {N : ℕ} (maxErr : ℝ) (gp : Vec N → Bool)
    (maxSamples : ℕ) :
    ∀ (pt px sv : Vec N) (i : ℕ) (st : Unit),
      gp pt = true → gp px = false →
      gp ((bssLoop maxErr (pureCls gp) maxSamples pt px sv i st).pt) = true ∧
      gp ((bssLoop maxErr (pureCls gp) maxSamples pt px sv i st).px) = false := by
  intro pt px sv i st
  induction pt, px, sv, i, st using bssLoop.induct maxErr (pureCls gp) maxSamples with
  | case1 pt px sv i st hg s2 e st2 hcls =>
    intro _ _
    exact absurd hcls (by simp [pureCls])
  | case2 pt px sv i st hg s2 st2 hcls ih =>
    intro hpt hpx
    rw [bssLoop, dif_pos hg]
    simp only [hcls]
    have h2 : (Except.ok (gp (pt + s2)), st)
        = ((Except.ok true : Except SamplingError Bool), st2) := hcls
    simp only [Prod.mk.injEq, Except.ok.injEq] at h2
    exact ih h2.1 hpx
  | case3 pt px sv i st hg s2 st2 hcls ih =>
    intro hpt hpx
    rw [bssLoop, dif_pos hg]
    simp only [hcls]
    have h2 : (Except.ok (gp (pt + s2)), st)
        = ((Except.ok false : Except SamplingError Bool), st2) := hcls
    simp only [Prod.mk.injEq, Except.ok.injEq] at h2
    have hs2 : s2 = sdiv (px - pt) 2 := rfl
    have hmid : px - s2 = pt + s2 := by
      rw [hs2]
      funext j
      simp only [Pi.sub_apply, Pi.add_apply, sdiv]
      ring
    exact ih hpt (hmid.symm ▸ h2.1)
  | case4 pt px sv i st hg h2 =>
    intro hpt hpx
    rw [bssLoop, dif_neg hg, if_pos h2]
    exact ⟨hpt, hpx⟩
  | case5 pt px sv i st hg h2 =>
    intro hpt hpx
    rw [bssLoop, dif_neg hg, if_neg h2]
    exact ⟨hpt, hpx⟩

theorem fromClass_within {N : ℕ} {p q : Vec N} {c : Bool}
    (h : Sample.fromClass p c = Sample.withinMode q) : c = true ∧ p = q := by
  cases c
  · exact absurd h (by simp [Sample.fromClass])
  · refine ⟨rfl, ?_⟩
    have h2 : Sample.withinMode p = Sample.withinMode q := h
    injection h2

/-- The `FoundBoundary` point of `detect_crossing` is the `WithinMode`
member of the crossing pair. -/
theorem detectCrossing_found_within {N : ℕ} (a1 : ConstAdh N) (cur : Sample N)
    (hs : Halfspace N)
    (hfound : (a1.detectCrossing cur).state = AdhererState.foundBoundary hs) :
    a1.state = AdhererState.foundBoundary hs ∨
    Sample.withinMode hs.b = cur ∨ Sample.withinMode hs.b ∈ a1.samples := by
  rcases hlast : a1.samples.getLast? with _ | prev
  · left
    unfold ConstAdh.detectCrossing at hfound
    rw [hlast] at hfound
    cases cur <;> exact hfound
  · have hmem : prev ∈ a1.samples := getLast?_mem_list hlast
    cases prev with
    | withinMode t =>
      cases cur with
      | withinMode p =>
        left
        unfold ConstAdh.detectCrossing at hfound
        rw [hlast] at hfound
        exact hfound
      | outOfMode p =>
        unfold ConstAdh.detectCrossing at hfound
        rw [hlast] at hfound
        have h2 : AdhererState.foundBoundary (Halfspace.mk t
            (normalizeV (mulVecM (a1.span.getRotater (Real.pi / 2))
              (t - a1.pivot.b)))) = AdhererState.foundBoundary hs := hfound
        have h3 : Halfspace.mk t (normalizeV (mulVecM
            (a1.span.getRotater (Real.pi / 2)) (t - a1.pivot.b))) = hs := by
          injection h2
        right; right
        rw [← h3]
        exact hmem
    | outOfMode t =>
      cases cur with
      | withinMode p =>
        unfold ConstAdh.detectCrossing at hfound
        rw [hlast] at hfound
        have h2 : AdhererState.foundBoundary (Halfspace.mk p
            (normalizeV (mulVecM (a1.span.getRotater (Real.pi / 2))
              (p - a1.pivot.b)))) = AdhererState.foundBoundary hs := hfound
        have h3 : Halfspace.mk p (normalizeV (mulVecM
            (a1.span.getRotater (Real.pi / 2)) (p - a1.pivot.b))) = hs := by
          injection h2
        right; left
        rw [← h3]
      | outOfMode p =>
        left
        unfold ConstAdh.detectCrossing at hfound
        rw [hlast] at hfound
        exact hfound

/-- `detect_crossing` preserves the class-consistency invariant. -/
theorem detectCrossing_classInv {N : ℕ} (gp : Vec N → Bool) (a1 : ConstAdh N)
    (cur : Sample N) (hinv : ConstClassInv gp a1)
    (hcur : cur = Sample.fromClass cur.point (gp cur.point)) :
    ConstClassInv gp (a1.detectCrossing cur) := by
  obtain ⟨hsmp, hfound⟩ := hinv
  rcases detectCrossing_eq_or a1 cur with hd | ⟨hsf, hd⟩
  · rw [hd]; exact ⟨hsmp, hfound⟩
  · rw [hd]
    refine ⟨hsmp, ?_⟩
    intro hs hstate
    have h2 : AdhererState.foundBoundary hsf = AdhererState.foundBoundary hs :=
      hstate
    have hsteq : hsf = hs := by injection h2
    have h3 : (a1.detectCrossing cur).state = AdhererState.foundBoundary hs := by
      rw [hd]
      show AdhererState.foundBoundary hsf = _
      rw [hsteq]
    rcases detectCrossing_found_within a1 cur hs h3 with hold | hwc | hwmem
    · exact hfound hs hold
    · obtain ⟨hc, hpq⟩ := fromClass_within (hcur.symm.trans hwc.symm)
      rw [← hpq]
      exact hc
    · obtain ⟨hc, hpq⟩ := fromClass_within (hsmp _ hwmem).symm
      exact hc

/-- `afterSample` preserves the class-consistency invariant. -/
theorem constAdh_afterSample_classInv {N : ℕ} {σ : Type} (gp : Vec N → Bool)
    (a1 : ConstAdh N) (cur : Sample N) (st1 : σ) (a2 : ConstAdh N) (st2 : σ)
    (res : Except SamplingError (Sample N))
    (h : a1.afterSample cur st1 = (a2, st2, res))
    (hinv : ConstClassInv gp a1)
    (hcur : cur = Sample.fromClass cur.point (gp cur.point)) :
    ConstClassInv gp a2 := by
  have hdc := detectCrossing_classInv gp a1 cur hinv hcur
  unfold ConstAdh.afterSample at h
  dsimp only [] at h
  split_ifs at h with hif <;> simp only [Prod.mk.injEq] at h <;>
    obtain ⟨rfl, rfl, rfl⟩ := h
  · exact hdc
  · obtain ⟨hsmp, hfound⟩ := hdc
    refine ⟨?_, hfound⟩
    intro smp hmem
    rcases List.mem_append.mp hmem with h1 | h2
    · exact hsmp smp h1
    · have hsc : smp = cur := by simpa using h2
      subst hsc
      exact hcur

/-- One `ConstantAdherer` step under a pure classifier preserves the
class-consistency invariant. -/
theorem constAdh_step_classInv {N : ℕ} (gp : Vec N → Bool) (a : ConstAdh N)
    (st : Unit) (a2 : ConstAdh N) (st2 : Unit)
    (res : Except SamplingError (Sample N))
    (hstep : a.sampleNext (pureCls gp) st = (a2, st2, res))
    (hinv : ConstClassInv gp a) : ConstClassInv gp a2 := by
  unfold ConstAdh.sampleNext at hstep
  cases hrota : a.rot with
  | none =>
    rw [hrota] at hstep
    unfold ConstAdh.takeInitialSample at hstep
    simp only [pureCls] at hstep
    refine constAdh_afterSample_classInv gp _ _ _ _ _ _ hstep hinv ?_
    rw [Sample.point_fromClass]
  | some rotm =>
    rw [hrota] at hstep
    unfold ConstAdh.takeSample at hstep
    simp only [pureCls] at hstep
    refine constAdh_afterSample_classInv gp _ _ _ _ _ _ hstep hinv ?_
    rw [Sample.point_fromClass]

/-- Driving a `ConstantAdherer` to `FoundBoundary` under a pure classifier
yields a `WithinMode`-classified boundary point. -/
theorem runAdh_const_found_class {N : ℕ} (gp : Vec N → Bool) :
    ∀ (fuel : ℕ) (a : ConstAdh N) (st : Unit) (q : ℕ) (acc : List (Sample N))
      (q' : ℕ) (hs : Halfspace N) (a1 : ConstAdh N) (st1 : Unit)
      (smps : List (Sample N)),
      runAdh (constOps (pureCls gp)) fuel a st q acc = .found q' hs a1 st1 smps →
      ConstClassInv gp a → gp hs.b = true := by
  intro fuel
  induction fuel with
  | zero =>
    intro a st q acc q' hs a1 st1 smps hrun _
    simp [runAdh] at hrun
  | succ n ih =>
    intro a st q acc q' hs a1 st1 smps hrun hinv
    rw [runAdh] at hrun
    cases hstate : a.state with
    | foundBoundary hsf =>
      simp only [constOps, hstate] at hrun
      injection hrun with h1 h2 h3 h4 h5
      exact hinv.2 hs (h2 ▸ hstate)
    | searching =>
      rcases hsn : a.sampleNext (pureCls gp) st with ⟨a2, st2, res⟩
      simp only [constOps, hstate, hsn] at hrun
      cases res with
      | error e => simp at hrun
      | ok s =>
        have hrun2 : runAdh (constOps (pureCls gp)) n a2 st2 (q + 1)
            (acc ++ [s]) = .found q' hs a1 st1 smps := by
          simpa using hrun
        exact ih a2 st2 (q + 1) (acc ++ [s]) q' hs a1 st1 smps hrun2
          (constAdh_step_classInv gp a st a2 st2 (.ok s) hsn hinv)

/-- The class-consistency invariant holds at `ConstantAdherer::new`. -/
theorem constClassInv_new {N : ℕ} (gp : Vec N → Bool) (pivot : Halfspace N)
    (v0 : Vec N) (δ : ℝ) (mrOpt : Option ℝ) :
    ConstClassInv gp (ConstAdh.new pivot v0 δ mrOpt) := by
  constructor
  · intro smp hmem
    simp [ConstAdh.new] at hmem
  · intro hs hstate
    exact absurd hstate (by simp [ConstAdh.new])

/-- The classify-and-decrement phase of a `BinarySearchAdherer` step under a
pure classifier preserves the class-consistency invariant and the state. -/
theorem bsAdh_take_classInv {N : ℕ} (gp : Vec N → Bool) (a : BsAdh N)
    (st : Unit) (a1 : BsAdh N) (st1 : Unit)
    (res1 : Except SamplingError (Sample N))
    (htake : (match a.prevCls with
      | some pc => a.takeSample pc (pureCls gp) st
      | none => a.takeInitialSample (pureCls gp) st) = some (a1, st1, res1))
    (hinv : BsClassInv gp a) :
    BsClassInv gp a1 ∧ a1.state = a.state := by
  obtain ⟨ht, hfound⟩ := hinv
  cases hprev : a.prevCls with
  | none =>
    rw [hprev] at htake
    unfold BsAdh.takeInitialSample at htake
    simp only [pureCls] at htake
    by_cases hc : gp (a.pivot.b + a.v) = true
    · rw [if_pos hc, if_pos hc] at htake
      split_ifs at htake with h0
      simp only [Option.some.injEq, Prod.mk.injEq] at htake
      obtain ⟨rfl, -, rfl⟩ := htake
      refine ⟨⟨?_, hfound⟩, rfl⟩
      intro tv htv
      have htv2 : some (a.pivot.b + a.v) = some tv := htv
      injection htv2 with hteq
      rw [← hteq]
      exact hc
    · rw [if_neg hc, if_neg hc] at htake
      split_ifs at htake with h0
      simp only [Option.some.injEq, Prod.mk.injEq] at htake
      obtain ⟨rfl, -, rfl⟩ := htake
      exact ⟨⟨ht, hfound⟩, rfl⟩
  | some pc =>
    rw [hprev] at htake
    unfold BsAdh.takeSample at htake
    simp only [pureCls] at htake
    generalize hθ : (if pc = true then (1 : ℝ) else -1) * a.angle = θ at htake
    by_cases hc : gp (a.pivot.b +
        mulVecM (a.rotSpan.getRotater θ) a.v) = true
    · rw [if_pos hc, if_pos hc] at htake
      split_ifs at htake with h0
      simp only [Option.some.injEq, Prod.mk.injEq] at htake
      obtain ⟨rfl, -, rfl⟩ := htake
      refine ⟨⟨?_, hfound⟩, rfl⟩
      intro tv htv
      have htv2 : some (a.pivot.b + mulVecM (a.rotSpan.getRotater θ) a.v)
          = some tv := htv
      injection htv2 with hteq
      rw [← hteq]
      exact hc
    · rw [if_neg hc, if_neg hc] at htake
      split_ifs at htake with h0
      simp only [Option.some.injEq, Prod.mk.injEq] at htake
      obtain ⟨rfl, -, rfl⟩ := htake
      exact ⟨⟨ht, hfound⟩, rfl⟩

/-- One `BinarySearchAdherer` step under a pure classifier preserves the
class-consistency invariant. -/
theorem bsAdh_step_classInv {N : ℕ} (gp : Vec N → Bool) (a : BsAdh N)
    (st : Unit) (a2 : BsAdh N) (st2 : Unit)
    (res : Except SamplingError (Sample N))
    (hstep : a.sampleNext (pureCls gp) st = some (a2, st2, res))
    (hinv : BsClassInv gp a) : BsClassInv gp a2 := by
  unfold BsAdh.sampleNext at hstep
  rcases htake : (match a.prevCls with
      | some pc => a.takeSample pc (pureCls gp) st
      | none => a.takeInitialSample (pureCls gp) st) with _ | ⟨a1, st1, res1⟩
  · rw [htake] at hstep
    exact absurd hstep (by simp)
  · rw [htake] at hstep
    obtain ⟨⟨ht1, hfound1⟩, hstate1⟩ := bsAdh_take_classInv gp a st a1 st1 res1
      htake hinv
    cases res1 with
    | error e =>
      dsimp only [] at hstep
      simp only [Option.some.injEq, Prod.mk.injEq] at hstep
      obtain ⟨rfl, -, rfl⟩ := hstep
      exact ⟨ht1, hfound1⟩
    | ok cur =>
      dsimp only [] at hstep
      split_ifs at hstep with h0
      · rcases h2 : a1.t with _ | tv <;> rcases h3 : a1.x with _ | xv <;>
          rw [h2, h3] at hstep <;> dsimp only [] at hstep <;>
          simp only [Option.some.injEq, Prod.mk.injEq] at hstep <;>
          obtain ⟨rfl, -, rfl⟩ := hstep
        · exact ⟨ht1, hfound1⟩
        · exact ⟨ht1, hfound1⟩
        · exact ⟨ht1, hfound1⟩
        · refine ⟨?_, ?_⟩
          · intro tv1 htv
            have htv2 : some tv = some tv1 := htv
            injection htv2 with hteq
            rw [← hteq]
            exact ht1 tv h2
          · intro hs hstate
            have hstate2 : AdhererState.foundBoundary (Halfspace.mk tv
                (normalizeV (mulVecM (a1.rotSpan.getRotater (Real.pi / 2))
                  (tv - a1.pivot.b)))) = AdhererState.foundBoundary hs := hstate
            have hseq : Halfspace.mk tv (normalizeV (mulVecM
                (a1.rotSpan.getRotater (Real.pi / 2)) (tv - a1.pivot.b)))
                = hs := by
              injection hstate2
            rw [← hseq]
            exact ht1 tv h2
      · simp only [Option.some.injEq, Prod.mk.injEq] at hstep
        obtain ⟨rfl, -, rfl⟩ := hstep
        exact ⟨ht1, hfound1⟩

/-- Driving a `BinarySearchAdherer` to `FoundBoundary` under a pure
classifier yields a `WithinMode`-classified boundary point. -/
theorem runAdh_bs_found_class {N : ℕ} (gp : Vec N → Bool) :
    ∀ (fuel : ℕ) (a : BsAdh N) (st : Unit) (q : ℕ) (acc : List (Sample N))
      (q' : ℕ) (hs : Halfspace N) (a1 : BsAdh N) (st1 : Unit)
      (smps : List (Sample N)),
      runAdh (bsOps (pureCls gp)) fuel a st q acc = .found q' hs a1 st1 smps →
      BsClassInv gp a → gp hs.b = true := by
  intro fuel
  induction fuel with
  | zero =>
    intro a st q acc q' hs a1 st1 smps hrun _
    simp [runAdh] at hrun
  | succ n ih =>
    intro a st q acc q' hs a1 st1 smps hrun hinv
    rw [runAdh] at hrun
    cases hstate : a.state with
    | foundBoundary hsf =>
      simp only [bsOps, hstate] at hrun
      injection hrun with h1 h2 h3 h4 h5
      exact hinv.2 hs (h2 ▸ hstate)
    | searching =>
      rcases hsn : a.sampleNext (pureCls gp) st with _ | ⟨a2, st2, res⟩
      · simp [bsOps, hstate, hsn] at hrun
      · simp only [bsOps, hstate, hsn] at hrun
        cases res with
        | error e => simp at hrun
        | ok s =>
          have hrun2 : runAdh (bsOps (pureCls gp)) n a2 st2 (q + 1)
              (acc ++ [s]) = .found q' hs a1 st1 smps := by
            simpa using hrun
          exact ih a2 st2 (q + 1) (acc ++ [s]) q' hs a1 st1 smps hrun2
            (bsAdh_step_classInv gp a st a2 st2 (.ok s) hsn hinv)

/-- The class-consistency invariant holds at `BinarySearchAdherer::new`. -/
theorem bsClassInv_new {N : ℕ} (gp : Vec N → Bool) (pivot : Halfspace N)
    (v0 : Vec N) (initAngle : ℝ) (nIter : ℕ) :
    BsClassInv gp (BsAdh.new pivot v0 initAngle nIter) := by
  constructor
  · intro tv htv
    exact absurd htv (by simp [BsAdh.new])
  · intro hs hstate
    exact absurd hstate (by simp [BsAdh.new])

/-- **C1 counterexample.** A concrete `approx_surface` run (dimension 2,
starting halfspace at the origin with normal `e₀`, `ConstantAdherer` factory
with `delta_angle = π`, scripted classifier) returns `Ok` with a normal
whose norm is `0`, off the claimed unit norm by `1`, far beyond the `1e-10`
tolerance: the two neighbor normals average out because `approx_surface`
divides by the neighbor count but never re-normalizes. -/
theorem claim_C1_counterexample :
    (approxNormal (constOps (totalCls (scriptG 2 [true, false, false, true])))
        (fun hs v => ConstAdh.new hs v Real.pi (some 42)) 3 1 hsC1 0).map normV
      = some 0 ∧
    ¬ (|(0 : ℝ) - 1| ≤ 1e-10) := by
  constructor
  · norm_num [approxNormal, approx_surface, approxLoop, createCardinals,
      (by decide : (List.finRange 2).drop 1 = [1]),
      runAdh, constOps, ConstAdh.new, ConstAdh.sampleNext,
      ConstAdh.takeInitialSample, ConstAdh.takeSample, ConstAdh.afterSample,
      ConstAdh.detectCrossing, totalCls, scriptG, Sample.fromClass,
      AdhererState.isSearching, List.getD, Option.getD, Option.map,
      hsC1, colM, idM, stdBasis, vangle, SpanT.new, SpanT.getRotater,
      normalizeV, normV, dotV, mulVecM, outerV, sdiv, Fin.sum_univ_two,
      Fin.sum_univ_succ, Fin.sum_univ_zero, Fin.succ_zero_eq_one,
      Real.sqrt_one, Real.arccos_one, Real.sin_pi_div_two,
      Real.cos_pi_div_two, Real.sin_pi, Real.cos_pi, Real.sin_neg,
      Real.cos_neg, Real.sqrt_zero]
  · norm_num

/-- **C1 (amended).** The unit-norm/`WithinMode` invariant holds for the
producers that normalize — but not for `approx_surface`: (i) under a pure
classifier with `t` `WithinMode` and `x` `OutOfMode`, an `Ok` of
`binary_surface_search` has a unit normal and a `WithinMode` boundary point;
(ii)/(iii) a `FoundBoundary` halfspace of a `ConstantAdherer` or
`BinarySearchAdherer` started with an in-surface displacement has a unit
normal, and under a pure classifier its boundary point is `WithinMode`;
(iv) `approx_surface` keeps the original boundary point but returns the
plain neighbor-normal average, without re-normalization (see the
counterexample for a run whose averaged normal is far from unit norm). -/
theorem claim_C1_unit_normals {N : ℕ} :
    (∀ (gp : Vec (N + 1) → Bool) (t x : Vec (N + 1)) (maxErr : ℝ)
      (maxSamples : ℕ) (hs : Halfspace (N + 1)),
      gp t = true → gp x = false →
      binary_surface_search maxErr (BoundaryPair.mk t x) maxSamples
        (pureCls gp) () = .ok hs →
      normV hs.n = 1 ∧ gp hs.b = true) ∧
    (∀ (gp : Vec (N + 1) → Bool) (pivot : Halfspace (N + 1))
      (v0 : Vec (N + 1)) (δ : ℝ) (mrOpt : Option ℝ) (fuel : ℕ)
      (hs : Halfspace (N + 1)),
      pivot.n ≠ 0 → v0 ≠ 0 → dotV pivot.n v0 = 0 →
      (runAdh (constOps (pureCls gp)) fuel (ConstAdh.new pivot v0 δ mrOpt)
        () 0 []).foundHalfspace = some hs →
      normV hs.n = 1 ∧ gp hs.b = true) ∧
    (∀ (gp : Vec (N + 1) → Bool) (pivot : Halfspace (N + 1))
      (v0 : Vec (N + 1)) (initAngle : ℝ) (nIter : ℕ) (fuel : ℕ)
      (hs : Halfspace (N + 1)),
      pivot.n ≠ 0 → v0 ≠ 0 → dotV pivot.n v0 = 0 →
      (runAdh (bsOps (pureCls gp)) fuel (BsAdh.new pivot v0 initAngle nIter)
        () 0 []).foundHalfspace = some hs →
      normV hs.n = 1 ∧ gp hs.b = true) ∧
    (∀ (A σ : Type) (ops : AdhOps (N + 1) A σ)
      (adhereFrom : Halfspace (N + 1) → Vec (N + 1) → A) (fuel : ℕ) (d : ℝ)
      (hs : Halfspace (N + 1)) (st : σ) (hs2 : Halfspace (N + 1))
      (nbs : List (Halfspace (N + 1))) (smps : List (Sample (N + 1)))
      (st2 : σ),
      approx_surface ops adhereFrom fuel d hs st
        = some (.ok ((hs2, nbs, smps), st2)) →
      hs2.b = hs.b ∧
      hs2.n = sdiv (nbs.foldl (fun acc nb => acc + nb.n) 0)
        ((nbs.length : ℝ))) := by
  refine ⟨?_, ?_, ?_, ?_⟩
  · intro gp t x maxErr maxSamples hs hgt hgx hok
    unfold binary_surface_search at hok
    obtain ⟨hL1, hL2, hL3⟩ := bssLoop_spec maxErr (fun st p => (gp p, st))
      maxSamples t x (x - t) 0 () rfl
    obtain ⟨hb, hn, hle⟩ := hL2 hs hok
    obtain ⟨hipt, hipx⟩ := bssLoop_pure_inv maxErr gp maxSamples t x (x - t)
      0 () hgt hgx
    have hne : (bssLoop maxErr (pureCls gp) maxSamples t x (x - t) 0 ()).px -
        (bssLoop maxErr (pureCls gp) maxSamples t x (x - t) 0 ()).pt ≠ 0 := by
      intro hzero
      have hpp : (bssLoop maxErr (pureCls gp) maxSamples t x (x - t) 0 ()).px
          = (bssLoop maxErr (pureCls gp) maxSamples t x (x - t) 0 ()).pt :=
        sub_eq_zero.mp hzero
      rw [hpp, hipt] at hipx
      exact Bool.true_eq_false.mp hipx
    refine ⟨?_, ?_⟩
    · rw [hn]
      exact normV_normalizeV hne
    · rw [hb]
      exact hipt
  · intro gp pivot v0 δ mrOpt fuel hs hn hv horth hfound
    have ho := spanNew_orthonormal_of_orth hn hv horth
    rcases hrun : runAdh (constOps (pureCls gp)) fuel
        (ConstAdh.new pivot v0 δ mrOpt) () 0 [] with
      ⟨q', hs', a1, st1, smps⟩ | ⟨q', e, a1, st1, smps⟩ | q' | _
    · rw [hrun] at hfound
      have h2 : some hs' = some hs := hfound
      have hs_eq : hs' = hs := by injection h2
      obtain ⟨w, hw, hb, hnrm⟩ := runAdh_const_found_span
        (fun st p => (gp p, st)) ho fuel (ConstAdh.new pivot v0 δ mrOpt) ()
        0 [] q' hs' a1 st1 smps hrun (constSpanInv_new hn hv horth δ mrOpt)
      have hrw := inSpanNorm_rot ho hw (Real.pi / 2)
      have hwne := inSpanNorm_ne_zero ho hv hrw
      refine ⟨?_, ?_⟩
      · rw [← hs_eq, hnrm]
        exact normV_normalizeV hwne
      · rw [← hs_eq]
        exact runAdh_const_found_class gp fuel (ConstAdh.new pivot v0 δ mrOpt)
          () 0 [] q' hs' a1 st1 smps hrun
          (constClassInv_new gp pivot v0 δ mrOpt)
    · rw [hrun] at hfound
      exact absurd hfound (by simp [RunOutcome.foundHalfspace])
    · rw [hrun] at hfound
      exact absurd hfound (by simp [RunOutcome.foundHalfspace])
    · rw [hrun] at hfound
      exact absurd hfound (by simp [RunOutcome.foundHalfspace])
  · intro gp pivot v0 initAngle nIter fuel hs hn hv horth hfound
    have ho := spanNew_orthonormal_of_orth hn hv horth
    rcases hrun : runAdh (bsOps (pureCls gp)) fuel
        (BsAdh.new pivot v0 initAngle nIter) () 0 [] with
      ⟨q', hs', a1, st1, smps⟩ | ⟨q', e, a1, st1, smps⟩ | q' | _
    · rw [hrun] at hfound
      have h2 : some hs' = some hs := hfound
      have hs_eq : hs' = hs := by injection h2
      obtain ⟨w, hw, hb, hnrm⟩ := runAdh_bs_found_span
        (fun st p => (gp p, st)) ho fuel (BsAdh.new pivot v0 initAngle nIter)
        () 0 [] q' hs' a1 st1 smps hrun (bsSpanInv_new hn hv horth initAngle
        nIter)
      have hrw := inSpanNorm_rot ho hw (Real.pi / 2)
      have hwne := inSpanNorm_ne_zero ho hv hrw
      refine ⟨?_, ?_⟩
      · rw [← hs_eq, hnrm]
        exact normV_normalizeV hwne
      · rw [← hs_eq]
        exact runAdh_bs_found_class gp fuel (BsAdh.new pivot v0 initAngle
          nIter) () 0 [] q' hs' a1 st1 smps hrun
          (bsClassInv_new gp pivot v0 initAngle nIter)
    · rw [hrun] at hfound
      exact absurd hfound (by simp [RunOutcome.foundHalfspace])
    · rw [hrun] at hfound
      exact absurd hfound (by simp [RunOutcome.foundHalfspace])
    · rw [hrun] at hfound
      exact absurd hfound (by simp [RunOutcome.foundHalfspace])
  · intro A σ ops adhereFrom fuel d hs st hs2 nbs smps st2 hok
    unfold approx_surface at hok
    dsimp only [] at hok
    rcases hloop : approxLoop ops adhereFrom fuel d hs
        (createCardinals hs.n (idM (N + 1))) st [] [] with _ | res2
    · rw [hloop] at hok
      exact absurd hok (by simp)
    · rw [hloop] at hok
      cases res2 with
      | error e =>
        dsimp only [] at hok
        exact absurd hok (by simp)
      | ok v =>
        rcases v with ⟨⟨nbs1, smps1⟩, st21⟩
        dsimp only [] at hok
        simp only [Option.some.injEq, Except.ok.injEq, Prod.mk.injEq] at hok
        obtain ⟨⟨h1, rfl, rfl⟩, rfl⟩ := hok
        rw [← h1]
        exact ⟨rfl, rfl⟩

/-- **C1 witness.** A `binary_surface_search` call under the pure classifier
`p ↦ decide (p 0 ≤ 0)` from `t = 0` (WithinMode) and `x = 4` (OutOfMode)
with `max_err = 4` returns `Ok` immediately; the amended claim gives the
unit normal and the `WithinMode` boundary point. -/
theorem claim_C1_unit_normals_witness :
    (fun p : Vec 1 => decide (p 0 ≤ 0)) zVec1 = true ∧
    (fun p : Vec 1 => decide (p 0 ≤ 0)) fourVec1 = false ∧
    binary_surface_search 4 (BoundaryPair.mk zVec1 fourVec1) 5
      (pureCls (fun p : Vec 1 => decide (p 0 ≤ 0))) () =
      .ok (Halfspace.mk zVec1 (normalizeV (fourVec1 - zVec1))) ∧
    normV (Halfspace.mk zVec1 (normalizeV (fourVec1 - zVec1))).n = 1 ∧
    (fun p : Vec 1 => decide (p 0 ≤ 0))
      (Halfspace.mk zVec1 (normalizeV (fourVec1 - zVec1))).b = true := by
  have hgt : (fun p : Vec 1 => decide (p 0 ≤ 0)) zVec1 = true := by
    simp [zVec1]
  have hgx : (fun p : Vec 1 => decide (p 0 ≤ 0)) fourVec1 = false := by
    rw [decide_eq_false_iff_not]
    norm_num [fourVec1]
  have hnorm4 : normV (fourVec1 - zVec1) = 4 := by
    have hsub : (fourVec1 - zVec1 : Vec 1) = fourVec1 := by
      funext i
      simp [fourVec1, zVec1]
    rw [hsub]
    unfold normV dotV fourVec1
    rw [Fin.sum_univ_one]
    rw [show (4 : ℝ) * 4 = 4 ^ 2 by norm_num, Real.sqrt_sq (by norm_num)]
  have hbss : binary_surface_search 4 (BoundaryPair.mk zVec1 fourVec1) 5
      (pureCls (fun p : Vec 1 => decide (p 0 ≤ 0))) () =
      .ok (Halfspace.mk zVec1 (normalizeV (fourVec1 - zVec1))) := by
    unfold binary_surface_search
    rw [bssLoop, dif_neg (by rw [hnorm4]; norm_num),
      if_neg (by rw [hnorm4]; norm_num)]
  have happ := (@claim_C1_unit_normals 0).1 (fun p : Vec 1 => decide (p 0 ≤ 0))
    zVec1 fourVec1 4 5 (Halfspace.mk zVec1 (normalizeV (fourVec1 - zVec1)))
    hgt hgx hbss
  exact ⟨hgt, hgx, hbss, happ.1, happ.2⟩

/-- **C2.** `MeshExplorer::new` succeeds (its tree then holds the root
node), and `load_boundary` with any non-empty boundary on such an explorer
panics: the loop's first `add_child` gives the new tree node the id
`tree node count = 1` and `get_next_paths_from` immediately indexes
`self.boundary` — still the old one-element boundary, since the field is
only replaced after the loop — with it, out of bounds. -/
theorem claim_C2_load_boundary_panics {N : ℕ} {A : Type} (d margin : ℝ)
    (root : Halfspace (N + 1)) (newB : List (Halfspace (N + 1)))
    (hne : newB ≠ []) :
    (MeshExp.new d root margin : Option (MeshExp (N + 1) A)).isSome = true ∧
    (MeshExp.new d root margin : Option (MeshExp (N + 1) A)).bind
      (fun e => e.loadBoundary newB) = none := by
  have hnew : (MeshExp.new d root margin : Option (MeshExp (N + 1) A)) = some
      { d := d
        boundary := [root]
        margin := margin
        basisVectors := idM (N + 1)
        pathQueue := (createCardinals root.n (idM (N + 1))).map
          (fun v => (0, v))
        currentParent := 0
        treeNodes := [root]
        treeEdges := []
        knnIndex := [(root.b, 0)]
        adherer := none } := rfl
  rcases newB with _ | ⟨hs, rest⟩
  · exact absurd rfl hne
  · rw [hnew]
    exact ⟨rfl, rfl⟩

/-- The select phase changes neither the boundary nor the tree nodes nor
the knn index. -/
theorem selectPhase_fields {N : ℕ} {A : Type}
    (adhereFrom : Halfspace (N + 1) → Vec (N + 1) → A)
    (e e1 : MeshExp (N + 1) A)
    (h : MeshExp.selectPhase adhereFrom e = some e1) :
    e1.boundary = e.boundary ∧ e1.treeNodes = e.treeNodes ∧
    e1.knnIndex = e.knnIndex := by
  unfold MeshExp.selectPhase at h
  cases ha : e.adherer with
  | some adh =>
    rw [ha] at h
    have h2 : some e = some e1 := h
    injection h2 with h3
    rw [← h3]
    exact ⟨rfl, rfl, rfl⟩
  | none =>
    rw [ha] at h
    rcases hsel : selectParentLoop e.d e.margin e.boundary e.knnIndex
        e.pathQueue with _ | r
    · rw [hsel] at h
      exact absurd h (by simp)
    · rw [hsel] at h
      rcases r with _ | ⟨⟨hs, id, v⟩, rest⟩
      · dsimp only [] at h
        simp only [Option.some.injEq] at h
        rw [← h]
        exact ⟨rfl, rfl, rfl⟩
      · dsimp only [] at h
        simp only [Option.some.injEq] at h
        rw [← h]
        exact ⟨rfl, rfl, rfl⟩

/-- A successful `add_child` of a halfspace just pushed onto the boundary
preserves the tree/index synchronization invariant. -/
theorem meshExp_addChild_extend {N : ℕ} {A : Type} (e : MeshExp (N + 1) A)
    (hs : Halfspace (N + 1)) (pid : Option ℕ)
    (htree : e.treeNodes = e.boundary)
    (hknn : e.knnIndex = e.boundary.enum.map (fun p => (p.2.b, p.1))) :
    ∀ e3, MeshExp.addChild { e with boundary := e.boundary ++ [hs] } hs pid
        = some e3 →
      MeshInv e3 ∧ e3.adherer = e.adherer := by
  intro e3 hac
  unfold MeshExp.addChild MeshExp.getNextPathsFrom at hac
  dsimp only [] at hac
  rw [htree, List.get?_concat_length] at hac
  dsimp only [] at hac
  simp only [Option.some.injEq] at hac
  rw [← hac]
  refine ⟨⟨?_, ?_⟩, rfl⟩
  · show e.boundary ++ [hs] = e.boundary ++ [hs]
    rfl
  · show e.knnIndex ++ [(hs.b, e.boundary.length)]
      = (e.boundary ++ [hs]).enum.map (fun p => (p.2.b, p.1))
    rw [hknn, List.enum_append, List.map_append]
    congr 1

/-- One successful `MeshExplorer::step` preserves the tree/index
synchronization invariant. -/
theorem meshExp_step_inv {N : ℕ} {A σ : Type} (ops : AdhOps (N + 1) A σ)
    (adhereFrom : Halfspace (N + 1) → Vec (N + 1) → A)
    (e : MeshExp (N + 1) A) (st : σ) (e2 : MeshExp (N + 1) A) (st2 : σ)
    (res : Except SamplingError (Option (Sample (N + 1))))
    (h : MeshExp.step ops adhereFrom e st = some (e2, st2, res))
    (hinv : MeshInv e) : MeshInv e2 := by
  obtain ⟨htree, hknn⟩ := hinv
  unfold MeshExp.step at h
  rcases hsel : MeshExp.selectPhase adhereFrom e with _ | e1
  · rw [hsel] at h
    exact absurd h (by simp)
  · rw [hsel] at h
    dsimp only [] at h
    obtain ⟨hb1, ht1, hk1⟩ := selectPhase_fields adhereFrom e e1 hsel
    have hinv1 : MeshInv e1 := by
      refine ⟨?_, ?_⟩
      · rw [ht1, hb1, htree]
      · rw [hk1, hb1, hknn]
    cases hadh : e1.adherer with
    | none =>
      rw [hadh] at h
      dsimp only [] at h
      simp only [Option.some.injEq, Prod.mk.injEq] at h
      obtain ⟨rfl, rfl, rfl⟩ := h
      exact hinv1
    | some adh =>
      rw [hadh] at h
      dsimp only [] at h
      rcases hsn : ops.sampleNext adh st with _ | ⟨adh2, st2a, resa⟩
      · rw [hsn] at h
        exact absurd h (by simp)
      · rw [hsn] at h
        cases resa with
        | error er =>
          dsimp only [] at h
          simp only [Option.some.injEq, Prod.mk.injEq] at h
          obtain ⟨rfl, rfl, rfl⟩ := h
          exact hinv1
        | ok smp =>
          dsimp only [] at h
          cases hgs : ops.getState adh2 with
          | searching =>
            rw [hgs] at h
            dsimp only [] at h
            simp only [Option.some.injEq, Prod.mk.injEq] at h
            obtain ⟨rfl, rfl, rfl⟩ := h
            exact hinv1
          | foundBoundary hsf =>
            rw [hgs] at h
            dsimp only [] at h
            rcases hac : MeshExp.addChild
                { e1 with
                  boundary := e1.boundary ++ [hsf]
                  adherer := some adh } hsf
                (some e1.currentParent) with _ | e3
            · rw [hac] at h
              exact absurd h (by simp)
            · rw [hac] at h
              dsimp only [] at h
              simp only [Option.some.injEq, Prod.mk.injEq] at h
              obtain ⟨rfl, rfl, rfl⟩ := h
              obtain ⟨⟨ht3, hk3⟩, _⟩ := meshExp_addChild_extend
                { e1 with adherer := some adh } hsf
                (some e1.currentParent) hinv1.1 hinv1.2 e3 hac
              exact ⟨ht3, hk3⟩

/-- The tree/index synchronization invariant holds at `MeshExplorer::new`. -/
theorem meshInv_new {N : ℕ} {A : Type} (d margin : ℝ)
    (root : Halfspace (N + 1)) :
    ∀ e0, (MeshExp.new d root margin : Option (MeshExp (N + 1) A)) = some e0 →
      MeshInv e0 := by
  intro e0 h
  have h2 : some
      ({ d := d
         boundary := [root]
         margin := margin
         basisVectors := idM (N + 1)
         pathQueue := (createCardinals root.n (idM (N + 1))).map
           (fun v => (0, v))
         currentParent := 0
         treeNodes := [root]
         treeEdges := []
         knnIndex := [(root.b, 0)]
         adherer := none } : MeshExp (N + 1) A) = some e0 := h
  injection h2 with h3
  rw [← h3]
  exact ⟨rfl, rfl⟩

/-- Driving `MeshExplorer::step` preserves the tree/index synchronization
invariant. -/
theorem meshRun_inv {N : ℕ} {A σ : Type} (ops : AdhOps (N + 1) A σ)
    (adhereFrom : Halfspace (N + 1) → Vec (N + 1) → A) :
    ∀ (k : ℕ) (e : MeshExp (N + 1) A) (st : σ) (e2 : MeshExp (N + 1) A)
      (st2 : σ),
      meshRun ops adhereFrom k e st = some (e2, st2) → MeshInv e →
      MeshInv e2 := by
  intro k
  induction k with
  | zero =>
    intro e st e2 st2 h hinv
    have h2 : some (e, st) = some (e2, st2) := h
    simp only [Option.some.injEq, Prod.mk.injEq] at h2
    obtain ⟨rfl, rfl⟩ := h2
    exact hinv
  | succ n ih =>
    intro e st e2 st2 h hinv
    rw [meshRun] at h
    rcases hstep : MeshExp.step ops adhereFrom e st with _ | ⟨e3, st3, res⟩
    · rw [hstep] at h
      exact absurd h (by simp)
    · rw [hstep] at h
      exact ih e3 st3 e2 st2 h
        (meshExp_step_inv ops adhereFrom e st e3 st3 res hstep hinv)

/-- **C7.** After any number of `MeshExplorer::step` calls on an explorer
created by `MeshExplorer::new`, the boundary length equals the knn-index
size, and every boundary halfspace's `b` point is in the index with its
boundary position as payload: `add_child` appends the tree node, the
boundary entry and the `(b, id)` index entry in lockstep. -/
theorem claim_C7_knn_sync {N : ℕ} {A σ : Type} (ops : AdhOps (N + 1) A σ)
    (adhereFrom : Halfspace (N + 1) → Vec (N + 1) → A) (d margin : ℝ)
    (root : Halfspace (N + 1)) (st : σ) (k : ℕ) (e : MeshExp (N + 1) A)
    (st2 : σ)
    (hrun : (MeshExp.new d root margin : Option (MeshExp (N + 1) A)).bind
        (fun e0 => meshRun ops adhereFrom k e0 st) = some (e, st2)) :
    e.boundary.length = e.knnIndex.length ∧
    ∀ (i : ℕ) (hi : i < e.boundary.length),
      ((e.boundary.get ⟨i, hi⟩).b, i) ∈ e.knnIndex := by
  rcases hnew : (MeshExp.new d root margin : Option (MeshExp (N + 1) A)) with
    _ | e0
  · rw [hnew] at hrun
    exact absurd hrun (by simp)
  · rw [hnew] at hrun
    have hrun2 : meshRun ops adhereFrom k e0 st = some (e, st2) := hrun
    have hinv : MeshInv e := meshRun_inv ops adhereFrom k e0 st e st2 hrun2
      (meshInv_new d margin root e0 hnew)
    obtain ⟨htree, hknn⟩ := hinv
    constructor
    · rw [hknn, List.length_map, List.enum_length]
    · intro i hi
      rw [hknn]
      have hi2 : i < e.boundary.enum.length := by
        rw [List.enum_length]
        exact hi
      have hget : e.boundary.enum.get ⟨i, hi2⟩ = (i, e.boundary.get ⟨i, hi⟩) := by
        simpa using List.getElem_enum e.boundary i hi2
      have hmem : (i, e.boundary.get ⟨i, hi⟩) ∈ e.boundary.enum := by
        rw [← hget]
        exact List.get_mem _ i hi2
      exact List.mem_map.mpr ⟨(i, e.boundary.get ⟨i, hi⟩), hmem, rfl⟩

theorem normV_neg {N : ℕ} (v : Vec N) : normV (-v) = normV v := by
  unfold normV dotV
  congr 1
  refine Finset.sum_congr rfl fun i _ => ?_
  rw [Pi.neg_apply, neg_mul_neg]

theorem colM_idM {N : ℕ} (j : Fin N) : colM (idM N) j = stdBasis N j := rfl

theorem vangle_stdBasis_self {N : ℕ} (j : Fin N) :
    vangle (stdBasis N j) (stdBasis N j) = 0 := by
  unfold vangle
  rw [dotV_stdBasis_self, normV_stdBasis]
  norm_num [Real.arccos_one]

/-- The cardinals of the already-aligned normal `e₀` in dimension 2 are
`±e₁` (the rotation is skipped: the angle is `0 ≤ 1e-10`). -/
theorem createCardinals_e0 :
    createCardinals (stdBasis (1 + 1) 0) (idM (1 + 1))
      = [stdBasis (1 + 1) 1, -stdBasis (1 + 1) 1] := by
  norm_num [createCardinals, colM_idM, vangle_stdBasis_self,
    (by decide : (List.finRange (1 + 1)).drop 1 = [1])]

/-- **C7 witness.** One concrete step on the dimension-2 explorer from
`MeshExplorer::new(1, ⟨0, e₀⟩, 10)` (both cardinal jumps overlap the root,
so the path queue is drained and exploration ends) yields `meshC7`; the
claim instantiated there gives the boundary/index synchronization. -/
theorem claim_C7_knn_sync_witness :
    (MeshExp.new 1 (Halfspace.mk (0 : Vec (1 + 1)) (stdBasis (1 + 1) 0)) 10
        : Option (MeshExp (1 + 1) (ConstAdh (1 + 1)))).bind
      (fun e0 => meshRun (constOps (totalCls (scriptG (1 + 1) [])))
        (fun hs v => ConstAdh.new hs v 1 none) 1 e0 (0 : ℕ))
      = some (meshC7, 0) ∧
    meshC7.boundary.length = meshC7.knnIndex.length ∧
    ∀ (i : ℕ) (hi : i < meshC7.boundary.length),
      ((meshC7.boundary.get ⟨i, hi⟩).b, i) ∈ meshC7.knnIndex := by
  have heval : (MeshExp.new 1 (Halfspace.mk (0 : Vec (1 + 1))
        (stdBasis (1 + 1) 0)) 10
        : Option (MeshExp (1 + 1) (ConstAdh (1 + 1)))).bind
      (fun e0 => meshRun (constOps (totalCls (scriptG (1 + 1) [])))
        (fun hs v => ConstAdh.new hs v 1 none) 1 e0 (0 : ℕ))
      = some (meshC7, 0) := by
    norm_num [MeshExp.new, MeshExp.addChild, MeshExp.getNextPathsFrom,
      MeshExp.step, MeshExp.selectPhase, selectParentLoop, nearestNeighbor,
      meshRun, meshC7, createCardinals_e0, normV_stdBasis, normV_neg,
      List.get?]
  exact ⟨heval, claim_C7_knn_sync (constOps (totalCls (scriptG (1 + 1) [])))
    (fun hs v => ConstAdh.new hs v 1 none) 1 10
    (Halfspace.mk (0 : Vec (1 + 1)) (stdBasis (1 + 1) 0)) 0 1 meshC7 0 heval⟩

/-- **C9.** For a `classify` call with `p` inside the domain and a response
byte available: exactly the `8·N`-byte encoding of `p`'s coordinates
(8 bytes per `f64`, least-significant first — little-endian on the
supported targets) is appended to the stream, exactly one response byte is
consumed, and the result is `OutOfMode(p)` for byte `0`, `WithinMode(p)`
for byte `1`, and `InvalidClassifierResponse` for every byte above `1`. -/
theorem claim_C9_remote_classify {N : ℕ} (bitsOf : ℝ → ℕ)
    (contains : Vec N → Bool) (p : Vec N) (s : RemoteState)
    (hin : contains p = true) :
    ∀ b rest, s.incoming = b :: rest →
      (remoteClassify bitsOf contains p s).2.written =
        s.written ++ ((List.finRange N).map
          (fun i => toLeBytes8 (bitsOf (p i)))).flatten ∧
      ((List.finRange N).map
        (fun i => toLeBytes8 (bitsOf (p i)))).flatten.length = 8 * N ∧
      (remoteClassify bitsOf contains p s).2.incoming = rest ∧
      (b = 0 → (remoteClassify bitsOf contains p s).1
        = .ok (Sample.outOfMode p)) ∧
      (b = 1 → (remoteClassify bitsOf contains p s).1
        = .ok (Sample.withinMode p)) ∧
      (b > 1 → (remoteClassify bitsOf contains p s).1
        = .error (.invalidClassifierResponse
          "Remote Classifier received non-bool response?")) := by
  intro b rest hb
  have hlen : ((List.finRange N).map
      (fun i => toLeBytes8 (bitsOf (p i)))).flatten.length = 8 * N := by
    rw [List.length_flatten, List.map_map]
    have hmap : ((List.finRange N).map
        (List.length ∘ fun i => toLeBytes8 (bitsOf (p i))))
        = List.replicate N 8 := by
      rw [show (List.length ∘ fun i : Fin N => toLeBytes8 (bitsOf (p i)))
          = fun _ : Fin N => 8 from rfl]
      rw [List.map_const']
      rw [List.length_finRange]
    rw [hmap, List.sum_replicate, smul_eq_mul, mul_comm]
  unfold remoteClassify
  rw [if_neg (show ¬ contains p = false by rw [hin]; simp)]
  dsimp only []
  rw [hb]
  dsimp only []
  by_cases hb1 : b > 1
  · rw [if_pos hb1]
    refine ⟨rfl, hlen, rfl, ?_, ?_, fun _ => rfl⟩
    · intro h0
      omega
    · intro h1
      omega
  · rw [if_neg hb1]
    refine ⟨rfl, hlen, rfl, ?_, ?_, ?_⟩
    · intro h0
      subst h0
      rfl
    · intro h1
      subst h1
      rfl
    · intro hgt
      exact absurd hgt hb1

/-- **C9 witness.** A dimension-1 `classify` call with bit pattern `3`,
an always-true domain and the single response byte `1` appends the 8-byte
little-endian word `[3,0,0,0,0,0,0,0]`, consumes the byte, and returns
`WithinMode`. -/
theorem claim_C9_remote_classify_witness :
    (remoteClassify (fun _ => 3) (fun _ => true) zVec1
        (RemoteState.mk [] [1])).2.written = [3, 0, 0, 0, 0, 0, 0, 0] ∧
    (remoteClassify (fun _ => 3) (fun _ => true) zVec1
        (RemoteState.mk [] [1])).2.incoming = [] ∧
    (remoteClassify (fun _ => 3) (fun _ => true) zVec1
        (RemoteState.mk [] [1])).1 = .ok (Sample.withinMode zVec1) := by
  have h := claim_C9_remote_classify (fun _ => 3) (fun _ => true) zVec1
    (RemoteState.mk [] [1]) rfl 1 [] rfl
  refine ⟨?_, h.2.2.1, h.2.2.2.2.1 rfl⟩
  have h2 := h.1
  rw [h2]
  simp [toLeBytes8, (by decide : List.finRange 1 = [0])]

/-- **C2 witness.** The concrete dimension-2 explorer from
`MeshExplorer::new(1, ⟨0, e₀⟩, 1/2)` is built successfully, and loading the
one-element boundary `[⟨0, e₀⟩]` panics. -/
theorem claim_C2_load_boundary_panics_witness :
    (MeshExp.new 1 (Halfspace.mk 0 (stdBasis 2 0)) (1 / 2)
      : Option (MeshExp 2 Unit)).isSome = true ∧
    (MeshExp.new 1 (Halfspace.mk 0 (stdBasis 2 0)) (1 / 2)
      : Option (MeshExp 2 Unit)).bind
      (fun e => e.loadBoundary [Halfspace.mk 0 (stdBasis 2 0)]) = none :=
  claim_C2_load_boundary_panics 1 (1 / 2) (Halfspace.mk 0 (stdBasis 2 0))
    [Halfspace.mk 0 (stdBasis 2 0)] (by simp)

end

end RacingSembas
